import Mathlib

/-!
Verification of the 5×5 Go-variant rules engine and search engine
(`src/app.py`): board data model, liberty computation, capture
resolution, move legality, the material-count heuristic, and the
depth-bounded minimax search with alpha-beta pruning.

The board is a 5×5 grid of three-valued cells; the source represents
it as a list of 5 rows of 5 one-character strings ("." empty,
"B" black, "W" white).  Here a board is a function
`Fin 5 → Fin 5 → Option Player`.
-/

namespace MiniGo

/-- A stone colour: Black ("B") or White ("W") in the source. -/
inductive Player where
  | B : Player
  | W : Player
deriving DecidableEq, Repr

/-- The opponent colour: the source computes `opp = "B" if player=="W" else "W"`. -/
def Player.opp : Player → Player
  | Player.B => Player.W
  | Player.W => Player.B

/-- A cell of the board: `none` is the empty cell "." and `some p` a stone of `p`. -/
abbrev Cell := Option Player

/-- A board: the 5×5 grid (`BOARD_SIZE = 5` in the source). -/
abbrev Board := Fin 5 → Fin 5 → Cell

/-- A coordinate on the board. -/
abbrev Pos := Fin 5 × Fin 5

/-- `new_board()`: the all-empty board. -/
def new_board : Board := fun _ _ => none

/-- The in-bounds 4-neighbours of `(r, c)`, in the source's generator order
`(-1,0),(1,0),(0,-1),(0,1)` with the bound check `0 <= nr < BOARD_SIZE`. -/
def neighbors (r c : Fin 5) : List Pos :=
  [((-1 : Int), (0 : Int)), (1, 0), (0, -1), (0, 1)].filterMap (fun d =>
    let nr : Int := (r : Nat) + d.1
    let nc : Int := (c : Nat) + d.2
    if h : 0 ≤ nr ∧ nr < 5 ∧ 0 ≤ nc ∧ nc < 5 then
      some (⟨nr.toNat, by omega⟩, ⟨nc.toNat, by omega⟩)
    else none)

/-- The `for nr, nc in neighbors(r, c)` loop body of `has_liberty`:
an empty neighbour returns `True` at once; a same-coloured neighbour
recurses (through `rec`, sharing the threaded visited set); otherwise the
loop continues. -/
def libLoop (board : Board) (color : Cell)
    (rec : Fin 5 → Fin 5 → List Pos → Option (Bool × List Pos)) :
    List Pos → List Pos → Option (Bool × List Pos)
  | [], visited => some (false, visited)
  | p :: rest, visited =>
    if board p.1 p.2 = none then some (true, visited)
    else if board p.1 p.2 = color then
      match rec p.1 p.2 visited with
      | none => none
      | some (true, v2) => some (true, v2)
      | some (false, v2) => libLoop board color rec rest v2
    else libLoop board color rec rest visited

/-- Fuel-indexed model of the source's `has_liberty(board, r, c, visited)`.
The Python function threads one shared, mutated `visited` set through the
whole recursion, so the model returns the final visited list alongside the
boolean; `none` models fuel exhaustion (theorem `has_liberty_terminates`
shows fuel 26 always suffices, so the wrapper `has_liberty` below is
total and faithful). -/
def hasLibertyF (board : Board) : Nat → Fin 5 → Fin 5 → List Pos → Option (Bool × List Pos)
  | 0 => fun _ _ _ => none
  | fuel + 1 => fun r c visited =>
    if (r, c) ∈ visited then some (false, visited)
    else libLoop board (board r c) (hasLibertyF board fuel) (neighbors r c) ((r, c) :: visited)

/-- `has_liberty(board, r, c)` as called by the program (fresh `visited=set()`).
Fuel 26 suffices for every input (`hasLibertyF_isSome`). -/
def has_liberty (board : Board) (r c : Fin 5) : Bool :=
  match hasLibertyF board 26 r c [] with
  | some (b, _) => b
  | none => false

/-- All 25 coordinates in row-major order (the source's
`for r in range(BOARD_SIZE): for c in range(BOARD_SIZE)`). -/
def allPos : List Pos :=
  (List.finRange 5).flatMap (fun r => (List.finRange 5).map (fun c => (r, c)))

/-- `remove_dead(board, color)`: collect, in row-major order over the input
board, every stone of `color` whose `has_liberty` check fails, then clear
those cells; return the new board together with `len(to_remove)`. -/
def remove_dead (board : Board) (color : Player) : Board × Nat :=
  let toRemove := allPos.filter
    (fun p => decide (board p.1 p.2 = some color) && ! has_liberty board p.1 p.2)
  (fun r c => if (r, c) ∈ toRemove then none else board r c, toRemove.length)

/-- `new_b[r][c] = v` after the source's `copy.deepcopy`. -/
def setCell (board : Board) (r c : Fin 5) (v : Cell) : Board :=
  fun r2 c2 => if r2 = r ∧ c2 = c then v else board r2 c2

/-- `apply_move(board, r, c, player)`: reject an occupied target, place the
stone on a copy, remove dead opponent groups, then reject if the placed
stone's group has no liberty; otherwise return the resolved copy. -/
def apply_move (board : Board) (r c : Fin 5) (player : Player) : Option Board :=
  if board r c ≠ none then none
  else
    let new_b := setCell board r c (some player)
    let new_b2 := (remove_dead new_b player.opp).1
    if has_liberty new_b2 r c then some new_b2 else none

/-- The number of stones of colour `p` on the board
(`sum(row.count(p) for row in board)`). -/
def countStones (board : Board) (p : Player) : Nat :=
  (allPos.filter (fun q => decide (board q.1 q.2 = some p))).length

/-- `heuristic(board, player)`: stones of `player` minus stones of the opponent. -/
def heuristic (board : Board) (player : Player) : Int :=
  (countStones board player : Int) - (countStones board player.opp : Int)

/-- Scores in the search: exact integers together with `math.inf` (`⊤`) and
`-math.inf` (`⊥`), the initial values of `beta`/`min_eval` and
`alpha`/`max_eval` in the source. -/
abbrev EInt := WithBot (WithTop Int)

/-- An exact integer score. -/
def toE (n : Int) : EInt := ((n : WithTop Int) : EInt)

/-- The rows of the grid, each row in column order (the source's nested
`for r ...: for c ...:` loops; `break` leaves only the inner loop). -/
def rowsList : List (List Pos) :=
  (List.finRange 5).map (fun r => (List.finRange 5).map (fun c => (r, c)))

/-- One row of the maximizing loop of `minimax`.  `F p a` evaluates the move
at `p` under the current `alpha` `a` (`none` when `apply_move` rejects it);
`beta` is fixed at this node.  State: `(max_eval, best_move, alpha)`.  The
source's `break` exits only this row, which `maxRow` models by returning
early; `maxRows` below continues with the next row regardless. -/
def maxRow (F : Pos → EInt → Option EInt) (beta : EInt) :
    List Pos → EInt × Option Pos × EInt → EInt × Option Pos × EInt
  | [], st => st
  | p :: rest, (m, bm, a) =>
    match F p a with
    | none => maxRow F beta rest (m, bm, a)
    | some ev =>
      let m2 := if m < ev then ev else m
      let bm2 := if m < ev then some p else bm
      let a2 := max a ev
      if beta ≤ a2 then (m2, bm2, a2) else maxRow F beta rest (m2, bm2, a2)

/-- The outer (row) loop on the maximizing side: the state survives a
`break` of the inner loop and the next row is still scanned. -/
def maxRows (F : Pos → EInt → Option EInt) (beta : EInt) :
    List (List Pos) → EInt × Option Pos × EInt → EInt × Option Pos × EInt
  | [], st => st
  | row :: rows, st => maxRows F beta rows (maxRow F beta row st)

/-- One row of the minimizing loop of `minimax`.  `F p b` evaluates the move
at `p` under the current `beta` `b`; `alpha` is fixed at this node.
State: `(min_eval, best_move, beta)`. -/
def minRow (F : Pos → EInt → Option EInt) (alpha : EInt) :
    List Pos → EInt × Option Pos × EInt → EInt × Option Pos × EInt
  | [], st => st
  | p :: rest, (m, bm, b) =>
    match F p b with
    | none => minRow F alpha rest (m, bm, b)
    | some ev =>
      let m2 := if ev < m then ev else m
      let bm2 := if ev < m then some p else bm
      let b2 := min b ev
      if b2 ≤ alpha then (m2, bm2, b2) else minRow F alpha rest (m2, bm2, b2)

/-- The outer (row) loop on the minimizing side. -/
def minRows (F : Pos → EInt → Option EInt) (alpha : EInt) :
    List (List Pos) → EInt × Option Pos × EInt → EInt × Option Pos × EInt
  | [], st => st
  | row :: rows, st => minRows F alpha rows (minRow F alpha row st)

/-- `minimax(board, depth, alpha, beta, maximizing, player)` (the depth
argument is written first here so that the recursion is structural on it):
at depth 0 the heuristic from `player`'s perspective; otherwise enumerate
all coordinates row-major, maximizing with `player`'s stones or minimizing
with the opponent's, threading `alpha`/`beta` and pruning as in the source
(where `break` exits only the inner column loop). -/
def minimax : Nat → Board → EInt → EInt → Bool → Player → EInt × Option Pos
  | 0 => fun board _ _ _ player => (toE (heuristic board player), none)
  | d + 1 => fun board alpha beta maximizing player =>
    if maximizing then
      let st := maxRows
        (fun p a => (apply_move board p.1 p.2 player).map
          (fun b2 => (minimax d b2 a beta false player).1))
        beta rowsList (⊥, none, alpha)
      (st.1, st.2.1)
    else
      let st := minRows
        (fun p b => (apply_move board p.1 p.2 player.opp).map
          (fun b2 => (minimax d b2 alpha b true player).1))
        alpha rowsList (⊤, none, beta)
      (st.1, st.2.1)

/-- The move-selection loop of `ai_move(depth)` (source lines 169–183):
enumerate all coordinates row-major, score each legal Black move by
`minimax(new_b, depth-1, -inf, inf, False, "B")`, and keep the first
strict maximum (`best_val is None or val > best_val`).  The 2-second
wall-clock cap on the loop is modelled as never expiring, and the
surrounding session-state bookkeeping is presentation glue. -/
def ai_root (board : Board) (depth : Nat) : Option EInt × Option Pos :=
  allPos.foldl
    (fun st p =>
      match apply_move board p.1 p.2 Player.B with
      | none => st
      | some b2 =>
        let val := (minimax (depth - 1) b2 ⊥ ⊤ false Player.B).1
        match st.1 with
        | none => (some val, some p)
        | some bv => if bv < val then (some val, some p) else st)
    (none, none)

/-- Modelled from the spec: the reference "un-pruned full minimax
exploration" that alpha-beta must match — the same row-major enumeration,
legality filter, leaf heuristic and strict-improvement tie-break as
`minimax`, but with no alpha/beta window and no pruning. -/
def fullMinimax : Nat → Board → Bool → Player → EInt × Option Pos
  | 0 => fun board _ player => (toE (heuristic board player), none)
  | d + 1 => fun board maximizing player =>
    if maximizing then
      allPos.foldl (fun st p =>
        match apply_move board p.1 p.2 player with
        | none => st
        | some b2 =>
          let ev := (fullMinimax d b2 false player).1
          if st.1 < ev then (ev, some p) else st) (⊥, none)
    else
      allPos.foldl (fun st p =>
        match apply_move board p.1 p.2 player.opp with
        | none => st
        | some b2 =>
          let ev := (fullMinimax d b2 true player).1
          if ev < st.1 then (ev, some p) else st) (⊤, none)

/-- Modelled from the spec: the root enumeration scored by the un-pruned
`fullMinimax` instead of the alpha-beta `minimax`. -/
def full_root (board : Board) (depth : Nat) : Option EInt × Option Pos :=
  allPos.foldl
    (fun st p =>
      match apply_move board p.1 p.2 Player.B with
      | none => st
      | some b2 =>
        let val := (fullMinimax (depth - 1) b2 false Player.B).1
        match st.1 with
        | none => (some val, some p)
        | some bv => if bv < val then (some val, some p) else st)
    (none, none)

/-! ### Python list indexing, for out-of-bounds coordinates

`board[r][c]` on a Python list accepts `-5 ≤ i < 0` as `i + 5` and raises
`IndexError` otherwise; `apply_moveI` models `apply_move` on raw integer
coordinates with exactly that indexing (`Except.error` = `IndexError`). -/

/-- Python list indexing into a length-5 list: `none` is an `IndexError`. -/
def pyIdx (i : Int) : Option (Fin 5) :=
  if h : 0 ≤ i ∧ i < 5 then some ⟨i.toNat, by omega⟩
  else if h2 : -5 ≤ i ∧ i < 0 then some ⟨(i + 5).toNat, by omega⟩
  else none

/-- The in-bounds 4-neighbours of a raw integer coordinate (the source's
`neighbors` filters with `0 <= nr < BOARD_SIZE`, so the results are
genuinely in bounds even when `(r, c)` is not). -/
def neighborsI (r c : Int) : List Pos :=
  [((-1 : Int), (0 : Int)), (1, 0), (0, -1), (0, 1)].filterMap (fun d =>
    let nr : Int := r + d.1
    let nc : Int := c + d.2
    if h : 0 ≤ nr ∧ nr < 5 ∧ 0 ≤ nc ∧ nc < 5 then
      some (⟨nr.toNat, by omega⟩, ⟨nc.toNat, by omega⟩)
    else none)

/-- The neighbour loop of `has_liberty` when started at an out-of-bounds
coordinate: the starting cell sits in `visited` but, being out of bounds,
never collides with the in-bounds cells the recursion visits, so the
threaded visited list starts empty here. -/
def libScanI (board : Board) (color : Cell) : List Pos → List Pos → Bool
  | [], _ => false
  | p :: rest, visited =>
    if board p.1 p.2 = none then true
    else if board p.1 p.2 = color then
      match hasLibertyF board 26 p.1 p.2 visited with
      | some (true, _) => true
      | some (false, v2) => libScanI board color rest v2
      | none => libScanI board color rest visited
    else libScanI board color rest visited

/-- `has_liberty(board, r, c)` on raw integer coordinates with Python
indexing; `none` models an `IndexError` reading `board[r][c]`. -/
def has_libertyI (board : Board) (r c : Int) : Option Bool :=
  if h : 0 ≤ r ∧ r < 5 ∧ 0 ≤ c ∧ c < 5 then
    some (has_liberty board ⟨r.toNat, by omega⟩ ⟨c.toNat, by omega⟩)
  else
    match pyIdx r, pyIdx c with
    | some ri, some ci => some (libScanI board (board ri ci) (neighborsI r c) [])
    | _, _ => none

/-- `apply_move(board, r, c, player)` on raw integer coordinates with
Python list indexing: negative in-wrap coordinates are silently
reinterpreted, other out-of-bounds coordinates raise `IndexError`. -/
def apply_moveI (board : Board) (r c : Int) (player : Player) :
    Except Unit (Option Board) :=
  match pyIdx r, pyIdx c with
  | some ri, some ci =>
    if board ri ci ≠ none then Except.ok none
    else
      let new_b := setCell board ri ci (some player)
      let new_b2 := (remove_dead new_b player.opp).1
      match has_libertyI new_b2 r c with
      | some lib => Except.ok (if lib then some new_b2 else none)
      | none => Except.error ()
  | _, _ => Except.error ()

end MiniGo

deriving instance DecidableEq for Except

namespace MiniGo

/-! ### Basic lemmas about the board operations -/

theorem setCell_self (b : Board) (r c : Fin 5) (v : Cell) : setCell b r c v r c = v := by
  simp [setCell]

theorem setCell_other (b : Board) (r c : Fin 5) (v : Cell) (r2 c2 : Fin 5)
    (h : ¬(r2 = r ∧ c2 = c)) : setCell b r c v r2 c2 = b r2 c2 := by
  simp [setCell, h]

theorem mem_allPos (p : Pos) : p ∈ allPos := by
  rcases p with ⟨r, c⟩
  simp only [allPos, List.mem_flatMap, List.mem_map]
  exact ⟨r, List.mem_finRange r, c, List.mem_finRange c, rfl⟩

/-- Membership in the `to_remove` list collected by `remove_dead`. -/
theorem mem_removeList (b : Board) (color : Player) (p : Pos) :
    p ∈ allPos.filter
      (fun q => decide (b q.1 q.2 = some color) && ! has_liberty b q.1 q.2) ↔
      b p.1 p.2 = some color ∧ has_liberty b p.1 p.2 = false := by
  simp [List.mem_filter, mem_allPos]

/-- Cell-level description of `remove_dead`. -/
theorem remove_dead_cell (b : Board) (color : Player) (r c : Fin 5) :
    (remove_dead b color).1 r c =
      if b r c = some color ∧ has_liberty b r c = false then none else b r c := by
  by_cases h : b r c = some color ∧ has_liberty b r c = false
  · rw [if_pos h]
    show (if (r, c) ∈ _ then none else b r c) = none
    rw [if_pos ((mem_removeList b color (r, c)).mpr h)]
  · rw [if_neg h]
    show (if (r, c) ∈ _ then none else b r c) = b r c
    rw [if_neg (fun hc => h ((mem_removeList b color (r, c)).mp hc))]

theorem remove_dead_ne (b : Board) (color : Player) (r c : Fin 5)
    (h : b r c ≠ some color) : (remove_dead b color).1 r c = b r c := by
  rw [remove_dead_cell, if_neg]
  intro hc
  exact h hc.1

/-- On success `apply_move` returns the capture-resolved copy, and the
target cell was empty. -/
theorem apply_move_some (b : Board) (r c : Fin 5) (player : Player) (b2 : Board)
    (h : apply_move b r c player = some b2) :
    b r c = none ∧
      b2 = (remove_dead (setCell b r c (some player)) player.opp).1 ∧
      has_liberty b2 r c = true := by
  simp only [apply_move] at h
  by_cases he : b r c = none
  · rw [if_neg (fun hc => hc he)] at h
    by_cases hl : has_liberty (remove_dead (setCell b r c (some player)) player.opp).1 r c = true
    · rw [if_pos hl] at h
      obtain rfl : (remove_dead (setCell b r c (some player)) player.opp).1 = b2 :=
        Option.some.inj h
      exact ⟨he, rfl, hl⟩
    · rw [if_neg hl] at h
      exact absurd h (by simp)
  · rw [if_pos he] at h
    exact absurd h (by simp)

/-- The placed stone is still on the returned board: `remove_dead` only
clears stones of the opponent's colour. -/
theorem apply_move_placed (b : Board) (r c : Fin 5) (player : Player) (b2 : Board)
    (h : apply_move b r c player = some b2) : b2 r c = some player := by
  obtain ⟨-, hb2, -⟩ := apply_move_some b r c player b2 h
  rw [hb2, remove_dead_ne, setCell_self]
  rw [setCell_self]
  intro hc
  cases player <;> simp [Player.opp] at hc

/-! ### Claim C10 -/

/-- C10: the heuristic is antisymmetric in the player argument:
`heuristic(board, "B") = - heuristic(board, "W")`, each being the named
player's stone count minus the other's. -/
theorem heuristic_antisym (b : Board) :
    heuristic b Player.B = - heuristic b Player.W := by
  simp only [heuristic, Player.opp]
  omega

/-! ### Claim C3 -/

/-- C3: `apply_move` on an occupied cell returns no result, and (the input
board being untouched — the model is pure) a successful result is always
distinguishable from the input board, never an alias of it. -/
theorem apply_move_occupied_no_alias (b : Board) (r c : Fin 5) (player : Player) :
    (b r c ≠ none → apply_move b r c player = none) ∧
      (∀ b2, apply_move b r c player = some b2 → b2 ≠ b) := by
  constructor
  · intro h
    rw [apply_move, if_pos h]
  · intro b2 h hals
    obtain ⟨he, -, -⟩ := apply_move_some b r c player b2 h
    have hp := apply_move_placed b r c player b2 h
    rw [hals, he] at hp
    exact Option.noConfusion hp

/-- Witness for C3 at a concrete occupied cell. -/
theorem apply_move_occupied_no_alias_witness :
    apply_move (setCell new_board 0 0 (some Player.B)) 0 0 Player.W = none :=
  (apply_move_occupied_no_alias (setCell new_board 0 0 (some Player.B)) 0 0 Player.W).1
    (by decide)

/-! ### Claim C9 -/

/-- C9: whenever `apply_move` succeeds, every cell of the result either
equals the input cell, or is the target cell changed from Empty to the
mover's stone, or is an opponent stone captured to Empty; in particular no
stone of the mover's own colour is ever removed and no other cell changes. -/
theorem apply_move_frame (b : Board) (r c : Fin 5) (player : Player) (b2 : Board)
    (h : apply_move b r c player = some b2) :
    b r c = none ∧ b2 r c = some player ∧
      ∀ p : Pos, b2 p.1 p.2 = b p.1 p.2 ∨
        (p = (r, c) ∧ b p.1 p.2 = none ∧ b2 p.1 p.2 = some player) ∨
        (b p.1 p.2 = some player.opp ∧ b2 p.1 p.2 = none) := by
  obtain ⟨he, hb2, -⟩ := apply_move_some b r c player b2 h
  refine ⟨he, apply_move_placed b r c player b2 h, ?_⟩
  intro p
  by_cases hp : p = (r, c)
  · refine Or.inr (Or.inl ⟨hp, ?_, ?_⟩)
    · rw [hp]; exact he
    · rw [hp]; exact apply_move_placed b r c player b2 h
  · have hset : setCell b r c (some player) p.1 p.2 = b p.1 p.2 := by
      apply setCell_other
      intro hc
      exact hp (Prod.ext hc.1 hc.2)
    rw [hb2, remove_dead_cell, hset]
    by_cases hd : b p.1 p.2 = some player.opp ∧
        has_liberty (setCell b r c (some player)) p.1 p.2 = false
    · rw [if_pos hd]
      exact Or.inr (Or.inr ⟨hd.1, rfl⟩)
    · rw [if_neg hd]
      exact Or.inl rfl

/-- The board produced by Black's first move on the empty board. -/
def firstMoveBoard : Board :=
  (remove_dead (setCell new_board 0 0 (some Player.B)) Player.B.opp).1

/-- Witness for C9: Black's first move on the empty board. -/
theorem apply_move_frame_witness :
    new_board 0 0 = none ∧ firstMoveBoard 0 0 = some Player.B ∧
      ∀ p : Pos, firstMoveBoard p.1 p.2 = new_board p.1 p.2 ∨
        (p = (0, 0) ∧ new_board p.1 p.2 = none ∧ firstMoveBoard p.1 p.2 = some Player.B) ∨
        (new_board p.1 p.2 = some Player.B.opp ∧ firstMoveBoard p.1 p.2 = none) :=
  apply_move_frame new_board 0 0 Player.B firstMoveBoard rfl

/-! ### Claim C6 -/

/-- C6 (refuting the claim on the code): `apply_move` does not fail fast on
out-of-bounds coordinates.  On the empty board, the call with `r = -1`,
`c = 0` is not rejected: Python list indexing silently reinterprets row
`-1` as row `4` and the returned board carries the White stone at `(4, 0)`,
a different cell than the one requested; and a call with `r = 5` raises
`IndexError` instead of returning a rejection. -/
theorem apply_move_out_of_bounds_bug :
    (apply_moveI new_board (-1) 0 Player.W).map (Option.map (fun b => b 4 0)) =
      Except.ok (some (some Player.W)) ∧
    apply_moveI new_board 5 0 Player.W = Except.error () := by
  constructor
  · decide
  · decide

/-! ### Termination of the liberty traversal (claim C8)

The visited list only ever grows (by cells not already in it), so it stays
duplicate-free; since there are only 25 cells, 26 units of fuel can never
run out. -/

theorem libLoop_suffix (board : Board) (color : Cell)
    (rec : Fin 5 → Fin 5 → List Pos → Option (Bool × List Pos))
    (hsfx : ∀ r c v bb v2, rec r c v = some (bb, v2) → v <:+ v2) :
    ∀ l v bb v2, libLoop board color rec l v = some (bb, v2) → v <:+ v2 := by
  intro l
  induction l with
  | nil =>
    intro v bb v2 h
    simp only [libLoop] at h
    simp only [Option.some.injEq, Prod.mk.injEq] at h
    obtain ⟨-, rfl⟩ := h
    exact List.suffix_refl v
  | cons p rest ih =>
    intro v bb v2 h
    simp only [libLoop] at h
    by_cases h1 : board p.1 p.2 = none
    · rw [if_pos h1] at h
      simp only [Option.some.injEq, Prod.mk.injEq] at h
      obtain ⟨-, rfl⟩ := h
      exact List.suffix_refl v
    · rw [if_neg h1] at h
      by_cases h2 : board p.1 p.2 = color
      · rw [if_pos h2] at h
        cases hr : rec p.1 p.2 v with
        | none => rw [hr] at h; exact absurd h (by simp)
        | some res =>
          rw [hr] at h
          rcases res with ⟨b3, v3⟩
          cases b3 with
          | true =>
            simp only at h
            simp only [Option.some.injEq, Prod.mk.injEq] at h
            obtain ⟨-, rfl⟩ := h
            exact hsfx _ _ _ _ _ hr
          | false =>
            simp only at h
            exact (hsfx _ _ _ _ _ hr).trans (ih _ _ _ h)
      · rw [if_neg h2] at h
        exact ih _ _ _ h

theorem hasLibertyF_suffix (board : Board) :
    ∀ fuel r c v bb v2, hasLibertyF board fuel r c v = some (bb, v2) → v <:+ v2 := by
  intro fuel
  induction fuel with
  | zero => intro r c v bb v2 h; exact absurd h (by simp [hasLibertyF])
  | succ n ih =>
    intro r c v bb v2 h
    simp only [hasLibertyF] at h
    by_cases hm : (r, c) ∈ v
    · rw [if_pos hm] at h
      simp only [Option.some.injEq, Prod.mk.injEq] at h
      obtain ⟨-, rfl⟩ := h
      exact List.suffix_refl v
    · rw [if_neg hm] at h
      exact (List.suffix_cons (r, c) v).trans
        (libLoop_suffix board _ _ (fun r2 c2 => ih r2 c2) _ _ _ _ h)

theorem libLoop_nodup (board : Board) (color : Cell)
    (rec : Fin 5 → Fin 5 → List Pos → Option (Bool × List Pos))
    (hnd : ∀ r c v bb v2, v.Nodup → rec r c v = some (bb, v2) → v2.Nodup) :
    ∀ l v bb v2, v.Nodup → libLoop board color rec l v = some (bb, v2) → v2.Nodup := by
  intro l
  induction l with
  | nil =>
    intro v bb v2 hv h
    simp only [libLoop] at h
    simp only [Option.some.injEq, Prod.mk.injEq] at h
    obtain ⟨-, rfl⟩ := h
    exact hv
  | cons p rest ih =>
    intro v bb v2 hv h
    simp only [libLoop] at h
    by_cases h1 : board p.1 p.2 = none
    · rw [if_pos h1] at h
      simp only [Option.some.injEq, Prod.mk.injEq] at h
      obtain ⟨-, rfl⟩ := h
      exact hv
    · rw [if_neg h1] at h
      by_cases h2 : board p.1 p.2 = color
      · rw [if_pos h2] at h
        cases hr : rec p.1 p.2 v with
        | none => rw [hr] at h; exact absurd h (by simp)
        | some res =>
          rw [hr] at h
          rcases res with ⟨b3, v3⟩
          cases b3 with
          | true =>
            simp only at h
            simp only [Option.some.injEq, Prod.mk.injEq] at h
            obtain ⟨-, rfl⟩ := h
            exact hnd _ _ _ _ _ hv hr
          | false =>
            simp only at h
            exact ih _ _ _ (hnd _ _ _ _ _ hv hr) h
      · rw [if_neg h2] at h
        exact ih _ _ _ hv h

theorem hasLibertyF_nodup (board : Board) :
    ∀ fuel r c v bb v2, v.Nodup → hasLibertyF board fuel r c v = some (bb, v2) → v2.Nodup := by
  intro fuel
  induction fuel with
  | zero => intro r c v bb v2 _ h; exact absurd h (by simp [hasLibertyF])
  | succ n ih =>
    intro r c v bb v2 hv h
    simp only [hasLibertyF] at h
    by_cases hm : (r, c) ∈ v
    · rw [if_pos hm] at h
      simp only [Option.some.injEq, Prod.mk.injEq] at h
      obtain ⟨-, rfl⟩ := h
      exact hv
    · rw [if_neg hm] at h
      exact libLoop_nodup board _ _ (fun r2 c2 => ih r2 c2) _ _ _ _
        (List.nodup_cons.mpr ⟨hm, hv⟩) h

/-- A duplicate-free list of coordinates has at most 25 entries. -/
theorem nodup_length_le (v : List Pos) (hv : v.Nodup) : v.length ≤ 25 := by
  have h := List.Nodup.length_le_card hv
  simpa using h

theorem libLoop_isSome (board : Board) (color : Cell)
    (rec : Fin 5 → Fin 5 → List Pos → Option (Bool × List Pos)) (fuel : Nat)
    (hsfx : ∀ r c v bb v2, rec r c v = some (bb, v2) → v <:+ v2)
    (hnd : ∀ r c v bb v2, v.Nodup → rec r c v = some (bb, v2) → v2.Nodup)
    (hsome : ∀ r c v, v.Nodup → 26 ≤ fuel + v.length → (rec r c v).isSome = true) :
    ∀ l v, v.Nodup → 26 ≤ fuel + v.length →
      (libLoop board color rec l v).isSome = true := by
  intro l
  induction l with
  | nil => intro v _ _; simp [libLoop]
  | cons p rest ih =>
    intro v hv hlen
    simp only [libLoop]
    by_cases h1 : board p.1 p.2 = none
    · rw [if_pos h1]; rfl
    · rw [if_neg h1]
      by_cases h2 : board p.1 p.2 = color
      · rw [if_pos h2]
        cases hr : rec p.1 p.2 v with
        | none =>
          have := hsome p.1 p.2 v hv hlen
          rw [hr] at this
          exact absurd this (by simp)
        | some res =>
          rcases res with ⟨b3, v3⟩
          cases b3 with
          | true => rfl
          | false =>
            simp only
            have hlen3 : v.length ≤ v3.length := (hsfx _ _ _ _ _ hr).length_le
            exact ih v3 (hnd _ _ _ _ _ hv hr) (by omega)

      · rw [if_neg h2]
        exact ih v hv hlen

theorem hasLibertyF_isSome (board : Board) :
    ∀ fuel r c v, v.Nodup → 26 ≤ fuel + v.length →
      (hasLibertyF board fuel r c v).isSome = true := by
  intro fuel
  induction fuel with
  | zero =>
    intro r c v hv hlen
    have := nodup_length_le v hv
    omega
  | succ n ih =>
    intro r c v hv hlen
    simp only [hasLibertyF]
    by_cases hm : (r, c) ∈ v
    · rw [if_pos hm]; rfl
    · rw [if_neg hm]
      exact libLoop_isSome board _ _ n
        (fun r2 c2 => hasLibertyF_suffix board n r2 c2)
        (fun r2 c2 => hasLibertyF_nodup board n r2 c2)
        (fun r2 c2 => ih r2 c2) _ _
        (List.nodup_cons.mpr ⟨hm, hv⟩) (by simp only [List.length_cons]; omega)

theorem libLoop_mono (board : Board) (color : Cell)
    (rec rec2 : Fin 5 → Fin 5 → List Pos → Option (Bool × List Pos))
    (hmono : ∀ r c v x, rec r c v = some x → rec2 r c v = some x) :
    ∀ l v x, libLoop board color rec l v = some x →
      libLoop board color rec2 l v = some x := by
  intro l
  induction l with
  | nil => intro v x h; simpa [libLoop] using h
  | cons p rest ih =>
    intro v x h
    simp only [libLoop] at h ⊢
    by_cases h1 : board p.1 p.2 = none
    · rwa [if_pos h1] at h ⊢
    · rw [if_neg h1] at h ⊢
      by_cases h2 : board p.1 p.2 = color
      · rw [if_pos h2] at h ⊢
        cases hr : rec p.1 p.2 v with
        | none => rw [hr] at h; exact absurd h (by simp)
        | some res =>
          rw [hr] at h
          rw [hmono _ _ _ _ hr]
          rcases res with ⟨b3, v3⟩
          cases b3 with
          | true => exact h
          | false => exact ih _ _ h
      · rw [if_neg h2] at h ⊢
        exact ih _ _ h

theorem hasLibertyF_mono (board : Board) :
    ∀ fuel r c v x, hasLibertyF board fuel r c v = some x →
      hasLibertyF board (fuel + 1) r c v = some x := by
  intro fuel
  induction fuel with
  | zero => intro r c v x h; exact absurd h (by simp [hasLibertyF])
  | succ n ih =>
    intro r c v x h
    simp only [hasLibertyF] at h ⊢
    by_cases hm : (r, c) ∈ v
    · rwa [if_pos hm] at h ⊢
    · rw [if_neg hm] at h ⊢
      exact libLoop_mono board _ _ _ (fun r2 c2 => ih r2 c2) _ _ _ h

theorem hasLibertyF_mono_le (board : Board) (fuel fuel2 : Nat) (hle : fuel ≤ fuel2) :
    ∀ r c v x, hasLibertyF board fuel r c v = some x →
      hasLibertyF board fuel2 r c v = some x := by
  induction fuel2, hle using Nat.le_induction with
  | base => intro r c v x h; exact h
  | succ n hn ih => intro r c v x h; exact hasLibertyF_mono board n r c v x (ih r c v x h)

/-! ### Claim C8 -/

/-- C8: the liberty traversal terminates on every input: because the
visited list, threaded through the recursion, keeps each of the 25 cells
from being entered more than once, fuel 26 never runs out
(`isSome`), and giving the recursion any larger call-depth budget
changes nothing — the recursion bottoms out on the visited set, not on
the budget. -/
theorem has_liberty_terminates (board : Board) (r c : Fin 5) (fuel : Nat)
    (h : 26 ≤ fuel) :
    (hasLibertyF board 26 r c []).isSome = true ∧
      hasLibertyF board fuel r c [] = hasLibertyF board 26 r c [] := by
  have hs := hasLibertyF_isSome board 26 r c [] List.nodup_nil (by simp)
  cases hx : hasLibertyF board 26 r c [] with
  | none => rw [hx] at hs; exact absurd hs (by simp)
  | some x =>
    exact ⟨rfl, hasLibertyF_mono_le board 26 fuel h r c [] x hx⟩

/-- Witness for C8 at a concrete board and fuel budget. -/
theorem has_liberty_terminates_witness :
    (hasLibertyF new_board 26 0 0 []).isSome = true ∧
      hasLibertyF new_board 30 0 0 [] = hasLibertyF new_board 26 0 0 [] :=
  has_liberty_terminates new_board 0 0 30 (by decide)

/-! ### Groups and liberties, specification side (claim C4)

The specification speaks of the maximal 4-connected same-coloured group of
a stone and of its liberties; `GroupHasLiberty` renders that directly with
reflexive-transitive closure, independently of the traversal the code uses. -/

/-- One step from `p` to an orthogonally adjacent cell `q` holding `color`. -/
def AdjStep (board : Board) (color : Cell) (p q : Pos) : Prop :=
  q ∈ neighbors p.1 p.2 ∧ board q.1 q.2 = color

/-- `q` lies in the maximal 4-connected same-coloured group of `p`. -/
def InGroup (board : Board) (p q : Pos) : Prop :=
  Relation.ReflTransGen (AdjStep board (board p.1 p.2)) p q

/-- The group containing the stone at `(r, c)` has at least one Empty cell
orthogonally adjacent to some stone of the group. -/
def GroupHasLiberty (board : Board) (r c : Fin 5) : Prop :=
  ∃ q, InGroup board (r, c) q ∧ ∃ n ∈ neighbors q.1 q.2, board n.1 n.2 = none

/-- No orthogonal neighbour of `p` is empty. -/
def NoEmptyAdj (board : Board) (p : Pos) : Prop :=
  ∀ n ∈ neighbors p.1 p.2, board n.1 n.2 ≠ none

/-- Every same-coloured neighbour of `p` belongs to the list `w`. -/
def ClosedIn (board : Board) (w : List Pos) (p : Pos) : Prop :=
  ∀ n ∈ neighbors p.1 p.2, board n.1 n.2 = board p.1 p.2 → n ∈ w

theorem ClosedIn_mono (board : Board) (w w2 : List Pos) (hsub : ∀ x ∈ w, x ∈ w2)
    (p : Pos) (h : ClosedIn board w p) : ClosedIn board w2 p :=
  fun n hn hc => hsub n (h n hn hc)

/-- The starting cell always ends up in the returned visited list. -/
theorem hasLibertyF_mem (board : Board) (fuel : Nat) (r c : Fin 5) (v : List Pos)
    (b2 : Bool) (v2 : List Pos) (h : hasLibertyF board fuel r c v = some (b2, v2)) :
    (r, c) ∈ v2 := by
  cases fuel with
  | zero => exact absurd h (by simp [hasLibertyF])
  | succ n =>
    simp only [hasLibertyF] at h
    by_cases hm : (r, c) ∈ v
    · rw [if_pos hm] at h
      simp only [Option.some.injEq, Prod.mk.injEq] at h
      obtain ⟨-, rfl⟩ := h
      exact hm
    · rw [if_neg hm] at h
      exact (libLoop_suffix board _ _ (fun r3 c3 => hasLibertyF_suffix board n r3 c3)
        _ _ _ _ h).mem (List.mem_cons_self _ _)

/-- Soundness of the neighbour loop: a `true` result exhibits either an
empty neighbour in the list or a same-coloured one whose group reaches a
liberty. -/
theorem libLoop_sound (board : Board) (color : Cell)
    (rec : Fin 5 → Fin 5 → List Pos → Option (Bool × List Pos))
    (hsnd : ∀ r2 c2 v v2, rec r2 c2 v = some (true, v2) →
      ∃ q, Relation.ReflTransGen (AdjStep board (board r2 c2)) (r2, c2) q ∧
        ∃ n ∈ neighbors q.1 q.2, board n.1 n.2 = none) :
    ∀ l v v2, libLoop board color rec l v = some (true, v2) →
      (∃ p ∈ l, board p.1 p.2 = none) ∨
        (∃ p ∈ l, board p.1 p.2 = color ∧
          ∃ q, Relation.ReflTransGen (AdjStep board color) p q ∧
            ∃ n ∈ neighbors q.1 q.2, board n.1 n.2 = none) := by
  intro l
  induction l with
  | nil => intro v v2 h; exact absurd h (by simp [libLoop])
  | cons p rest ih =>
    intro v v2 h
    simp only [libLoop] at h
    by_cases h1 : board p.1 p.2 = none
    · exact Or.inl ⟨p, List.mem_cons_self _ _, h1⟩
    · rw [if_neg h1] at h
      by_cases h2 : board p.1 p.2 = color
      · rw [if_pos h2] at h
        cases hr : rec p.1 p.2 v with
        | none => rw [hr] at h; exact absurd h (by simp)
        | some res =>
          rw [hr] at h
          rcases res with ⟨b3, v3⟩
          cases b3 with
          | true =>
            obtain ⟨q, hq, hn⟩ := hsnd _ _ _ _ hr
            rw [h2] at hq
            exact Or.inr ⟨p, List.mem_cons_self _ _, h2, q, hq, hn⟩
          | false =>
            simp only at h
            rcases ih _ _ h with ⟨q, hq, hqe⟩ | ⟨q, hq, hqc, hrest⟩
            · exact Or.inl ⟨q, List.mem_cons_of_mem _ hq, hqe⟩
            · exact Or.inr ⟨q, List.mem_cons_of_mem _ hq, hqc, hrest⟩
      · rw [if_neg h2] at h
        rcases ih _ _ h with ⟨q, hq, hqe⟩ | ⟨q, hq, hqc, hrest⟩
        · exact Or.inl ⟨q, List.mem_cons_of_mem _ hq, hqe⟩
        · exact Or.inr ⟨q, List.mem_cons_of_mem _ hq, hqc, hrest⟩

/-- Soundness of the traversal: `true` means the group of the start cell
really reaches an empty neighbour. -/
theorem hasLibertyF_sound (board : Board) :
    ∀ fuel r c v v2, hasLibertyF board fuel r c v = some (true, v2) →
      ∃ q, Relation.ReflTransGen (AdjStep board (board r c)) (r, c) q ∧
        ∃ n ∈ neighbors q.1 q.2, board n.1 n.2 = none := by
  intro fuel
  induction fuel with
  | zero => intro r c v v2 h; exact absurd h (by simp [hasLibertyF])
  | succ n ih =>
    intro r c v v2 h
    simp only [hasLibertyF] at h
    by_cases hm : (r, c) ∈ v
    · rw [if_pos hm] at h
      simp only [Option.some.injEq, Prod.mk.injEq] at h
      exact absurd h.1 (by simp)
    · rw [if_neg hm] at h
      rcases libLoop_sound board _ _ (fun r3 c3 v3 v4 => ih r3 c3 v3 v4) _ _ _ h with
        ⟨p, hp, hpe⟩ | ⟨p, hp, hpc, q, hq, hn⟩
      · exact ⟨(r, c), Relation.ReflTransGen.refl, p, hp, hpe⟩
      · exact ⟨q, Relation.ReflTransGen.head ⟨hp, hpc⟩ hq, hn⟩

/-- Completeness invariant of the neighbour loop: a `false` result means
every listed neighbour is non-empty with same-coloured ones visited, and
every newly visited cell has no empty neighbour and is closed in the
visited list. -/
theorem libLoop_complete (board : Board) (color : Cell)
    (rec : Fin 5 → Fin 5 → List Pos → Option (Bool × List Pos))
    (hsfx : ∀ r2 c2 v bb v2, rec r2 c2 v = some (bb, v2) → v <:+ v2)
    (hmem : ∀ r2 c2 v bb v2, rec r2 c2 v = some (bb, v2) → (r2, c2) ∈ v2)
    (hinv : ∀ r2 c2 v v2, rec r2 c2 v = some (false, v2) →
      ∀ p ∈ v2, p ∉ v → NoEmptyAdj board p ∧ ClosedIn board v2 p) :
    ∀ l v v2, libLoop board color rec l v = some (false, v2) →
      (v <:+ v2) ∧
      (∀ q ∈ l, board q.1 q.2 ≠ none ∧ (board q.1 q.2 = color → q ∈ v2)) ∧
      (∀ p ∈ v2, p ∉ v → NoEmptyAdj board p ∧ ClosedIn board v2 p) := by
  intro l
  induction l with
  | nil =>
    intro v v2 h
    simp only [libLoop, Option.some.injEq, Prod.mk.injEq] at h
    obtain ⟨-, rfl⟩ := h
    exact ⟨List.suffix_refl v, by simp, fun p hp hnp => absurd hp hnp⟩
  | cons p rest ih =>
    intro v v2 h
    simp only [libLoop] at h
    by_cases h1 : board p.1 p.2 = none
    · rw [if_pos h1] at h
      simp only [Option.some.injEq, Prod.mk.injEq] at h
      exact absurd h.1 (by simp)
    · rw [if_neg h1] at h
      by_cases h2 : board p.1 p.2 = color
      · rw [if_pos h2] at h
        cases hr : rec p.1 p.2 v with
        | none => rw [hr] at h; exact absurd h (by simp)
        | some res =>
          rw [hr] at h
          rcases res with ⟨b3, v3⟩
          cases b3 with
          | true =>
            simp only [Option.some.injEq, Prod.mk.injEq] at h
            exact absurd h.1 (by simp)
          | false =>
            simp only at h
            obtain ⟨hs3, hrest, hinvrest⟩ := ih _ _ h
            have hsfx3 : v <:+ v3 := hsfx _ _ _ _ _ hr
            refine ⟨hsfx3.trans hs3, ?_, ?_⟩
            · intro q hq
              rcases List.mem_cons.mp hq with rfl | hq2
              · exact ⟨h1, fun _ => hs3.mem (hmem _ _ _ _ _ hr)⟩
              · exact hrest q hq2
            · intro x hx hxv
              by_cases hx3 : x ∈ v3
              · obtain ⟨hne, hcl⟩ := hinv _ _ _ _ hr x hx3 hxv
                exact ⟨hne, ClosedIn_mono board v3 v2 (fun y hy => hs3.mem hy) x hcl⟩
              · exact hinvrest x hx hx3
      · rw [if_neg h2] at h
        obtain ⟨hs3, hrest, hinvrest⟩ := ih _ _ h
        refine ⟨hs3, ?_, hinvrest⟩
        intro q hq
        rcases List.mem_cons.mp hq with rfl | hq2
        · exact ⟨h1, fun hc => absurd hc h2⟩
        · exact hrest q hq2

/-- Completeness invariant of the traversal: after a `false` result every
newly visited cell has no empty neighbour and is closed in the visited
list. -/
theorem hasLibertyF_complete (board : Board) :
    ∀ fuel r c v v2, hasLibertyF board fuel r c v = some (false, v2) →
      ∀ p ∈ v2, p ∉ v → NoEmptyAdj board p ∧ ClosedIn board v2 p := by
  intro fuel
  induction fuel with
  | zero => intro r c v v2 h; exact absurd h (by simp [hasLibertyF])
  | succ n ih =>
    intro r c v v2 h
    simp only [hasLibertyF] at h
    by_cases hm : (r, c) ∈ v
    · rw [if_pos hm] at h
      simp only [Option.some.injEq, Prod.mk.injEq] at h
      obtain ⟨-, rfl⟩ := h
      intro p hp hnp
      exact absurd hp hnp
    · rw [if_neg hm] at h
      obtain ⟨hsfx, hnbrs, hinv⟩ := libLoop_complete board _ _
        (fun r3 c3 => hasLibertyF_suffix board n r3 c3)
        (fun r3 c3 v3 b3 v4 => hasLibertyF_mem board n r3 c3 v3 b3 v4)
        (fun r3 c3 v3 v4 => ih r3 c3 v3 v4) _ _ _ h
      intro p hp hnp
      by_cases hpc : p = (r, c)
      · subst hpc
        refine ⟨fun q hq => (hnbrs q hq).1, fun q hq hqc => (hnbrs q hq).2 hqc⟩
      · exact hinv p hp (by
          intro hc
          rcases List.mem_cons.mp hc with hc2 | hc2
          · exact hpc hc2
          · exact hnp hc2)

/-! ### Claim C4 -/

/-- C4: for a cell holding a stone, `has_liberty` returns true exactly when
the maximal 4-connected same-coloured group through that cell has at least
one empty cell orthogonally adjacent to one of its stones. -/
theorem has_liberty_correct (board : Board) (r c : Fin 5) (h : board r c ≠ none) :
    has_liberty board r c = true ↔ GroupHasLiberty board r c := by
  have hs := hasLibertyF_isSome board 26 r c [] List.nodup_nil (by simp)
  cases hx : hasLibertyF board 26 r c [] with
  | none => rw [hx] at hs; exact absurd hs (by simp)
  | some res =>
    rcases res with ⟨b2, v2⟩
    have hwrap : has_liberty board r c = b2 := by
      rw [has_liberty, hx]
    cases b2 with
    | true =>
      rw [hwrap]
      simp only [true_iff]
      obtain ⟨q, hq, hn⟩ := hasLibertyF_sound board 26 r c [] v2 hx
      exact ⟨q, hq, hn⟩
    | false =>
      rw [hwrap]
      constructor
      · intro hc
        exact absurd hc (by simp)
      intro hg
      exfalso
      obtain ⟨q, hq, n, hn, hne⟩ := hg
      have hinv := hasLibertyF_complete board 26 r c [] v2 hx
      have hmem0 := hasLibertyF_mem board 26 r c [] false v2 hx
      have hreach : ∀ x, InGroup board (r, c) x → x ∈ v2 ∧ board x.1 x.2 = board r c := by
        intro x hx2
        induction hx2 with
        | refl => exact ⟨hmem0, rfl⟩
        | tail hab hbc ihx =>
          obtain ⟨hbmem, hbcol⟩ := ihx
          obtain ⟨-, hclosed⟩ := hinv _ hbmem (List.not_mem_nil _)
          exact ⟨hclosed _ hbc.1 (hbc.2.trans hbcol.symm), hbc.2⟩
      obtain ⟨hqmem, -⟩ := hreach q hq
      obtain ⟨hne2, -⟩ := hinv q hqmem (List.not_mem_nil _)
      exact hne2 n hn hne

/-- Witness for C4 at a concrete stone. -/
theorem has_liberty_correct_witness :
    (setCell new_board 0 0 (some Player.B)) 0 0 ≠ none ∧
      (has_liberty (setCell new_board 0 0 (some Player.B)) 0 0 = true ↔
        GroupHasLiberty (setCell new_board 0 0 (some Player.B)) 0 0) :=
  ⟨by decide, has_liberty_correct (setCell new_board 0 0 (some Player.B)) 0 0 (by decide)⟩

/-! ### Claim C5 -/

theorem allPos_nodup : allPos.Nodup := by decide

/-- `¬ GroupHasLiberty` and a false `has_liberty` agree on stones. -/
theorem not_group_iff (b : Board) (r c : Fin 5) (h : b r c ≠ none) :
    has_liberty b r c = false ↔ ¬ GroupHasLiberty b r c := by
  rw [← has_liberty_correct b r c h]
  constructor
  · intro hf ht; rw [hf] at ht; exact absurd ht (by simp)
  · intro hnt
    cases hb : has_liberty b r c with
    | false => rfl
    | true => exact absurd hb hnt

/-- C5: `remove_dead(board, color)` clears to Empty exactly the stones of
`color` whose group (evaluated on the unmodified input board, hence
simultaneously for all stones of that colour) has no liberty, leaves every
other cell unchanged, and returns the number of cells it cleared. -/
theorem remove_dead_correct (b : Board) (color : Player) :
    (∀ r c : Fin 5,
      ((remove_dead b color).1 r c = none ↔
        (b r c = none ∨ (b r c = some color ∧ ¬ GroupHasLiberty b r c))) ∧
      ((remove_dead b color).1 r c ≠ none → (remove_dead b color).1 r c = b r c)) ∧
    (remove_dead b color).2 =
      ((Finset.univ : Finset Pos).filter
        (fun p => (remove_dead b color).1 p.1 p.2 ≠ b p.1 p.2)).card := by
  constructor
  · intro r c
    rw [remove_dead_cell]
    by_cases hd : b r c = some color ∧ has_liberty b r c = false
    · rw [if_pos hd]
      have hstone : b r c ≠ none := by rw [hd.1]; simp
      refine ⟨⟨fun _ => Or.inr ⟨hd.1, (not_group_iff b r c hstone).mp hd.2⟩, fun _ => rfl⟩, ?_⟩
      intro hne
      exact absurd rfl hne
    · rw [if_neg hd]
      refine ⟨⟨fun he => Or.inl he, ?_⟩, fun _ => rfl⟩
      rintro (he | ⟨hc, hng⟩)
      · exact he
      · have hstone : b r c ≠ none := by rw [hc]; simp
        have hf : has_liberty b r c = false := (not_group_iff b r c hstone).mpr hng
        exact absurd ⟨hc, hf⟩ hd
  · have hchanged : ∀ p : Pos, ((remove_dead b color).1 p.1 p.2 ≠ b p.1 p.2) ↔
        (b p.1 p.2 = some color ∧ has_liberty b p.1 p.2 = false) := by
      intro p
      rw [remove_dead_cell]
      by_cases hd : b p.1 p.2 = some color ∧ has_liberty b p.1 p.2 = false
      · rw [if_pos hd]
        refine ⟨fun _ => hd, fun _ => ?_⟩
        rw [hd.1]
        simp
      · rw [if_neg hd]
        exact ⟨fun hc => absurd rfl hc, fun hc => absurd hc hd⟩
    have hset : ((Finset.univ : Finset Pos).filter
        (fun p => (remove_dead b color).1 p.1 p.2 ≠ b p.1 p.2)) =
        (allPos.filter (fun p => decide (b p.1 p.2 = some color) &&
          ! has_liberty b p.1 p.2)).toFinset := by
      ext p
      rw [Finset.mem_filter, List.mem_toFinset, mem_removeList]
      constructor
      · rintro ⟨-, hp⟩
        exact (hchanged p).mp hp
      · intro hp
        exact ⟨Finset.mem_univ p, (hchanged p).mpr hp⟩
    have hnd : (allPos.filter (fun p => decide (b p.1 p.2 = some color) &&
        ! has_liberty b p.1 p.2)).Nodup := allPos_nodup.filter _
    rw [hset, List.toFinset_card_of_nodup hnd]
    rfl

/-- Witness for C5 at a concrete board and colour. -/
theorem remove_dead_correct_witness :
    (∀ r c : Fin 5,
      ((remove_dead firstMoveBoard Player.B).1 r c = none ↔
        (firstMoveBoard r c = none ∨
          (firstMoveBoard r c = some Player.B ∧ ¬ GroupHasLiberty firstMoveBoard r c))) ∧
      ((remove_dead firstMoveBoard Player.B).1 r c ≠ none →
        (remove_dead firstMoveBoard Player.B).1 r c = firstMoveBoard r c)) ∧
    (remove_dead firstMoveBoard Player.B).2 =
      ((Finset.univ : Finset Pos).filter
        (fun p => (remove_dead firstMoveBoard Player.B).1 p.1 p.2 ≠ firstMoveBoard p.1 p.2)).card :=
  remove_dead_correct firstMoveBoard Player.B

/-! ### Claim C2 -/

/-- C2: for an empty target cell, `apply_move` places the stone, resolves
captures, and only then tests the placed stone's group: the move is
rejected exactly when that group has no liberty on the capture-resolved
board (so a placement that gains its liberty through a capture is legal). -/
theorem apply_move_suicide_after_capture (b : Board) (r c : Fin 5) (player : Player)
    (h : b r c = none) :
    (∀ b2, apply_move b r c player = some b2 →
      b2 = (remove_dead (setCell b r c (some player)) player.opp).1) ∧
      (apply_move b r c player = none ↔
        ¬ GroupHasLiberty ((remove_dead (setCell b r c (some player)) player.opp).1) r c) := by
  constructor
  · intro b2 hb2
    exact (apply_move_some b r c player b2 hb2).2.1
  · have hstone : (remove_dead (setCell b r c (some player)) player.opp).1 r c =
        some player := by
      rw [remove_dead_ne, setCell_self]
      rw [setCell_self]
      intro hc
      cases player <;> simp [Player.opp] at hc
    have hne : (remove_dead (setCell b r c (some player)) player.opp).1 r c ≠ none := by
      rw [hstone]; simp
    rw [apply_move, if_neg (fun hc => hc h)]
    by_cases hl : has_liberty (remove_dead (setCell b r c (some player)) player.opp).1 r c = true
    · rw [if_pos hl]
      constructor
      · intro hc; exact absurd hc (by simp)
      · intro hng
        exact absurd ((has_liberty_correct _ r c hne).mp hl) hng
    · rw [if_neg hl]
      refine ⟨fun _ => ?_, fun _ => rfl⟩
      intro hg
      exact hl ((has_liberty_correct _ r c hne).mpr hg)

/-- A snapback position: White to play at `(0, 0)` has no liberty there
unless the capture of the Black stone at `(0, 1)` is resolved first. -/
def snapBoard : Board := fun r c =>
  if r = 0 ∧ c = 1 then some Player.B
  else if r = 1 ∧ c = 0 then some Player.B
  else if r = 1 ∧ c = 1 then some Player.W
  else if r = 0 ∧ c = 2 then some Player.W
  else none

/-- Witness for C2 at the snapback position (where the move is in fact
accepted: the capture gives the placed stone its liberty). -/
theorem apply_move_suicide_after_capture_witness :
    snapBoard 0 0 = none ∧
      ((∀ b2, apply_move snapBoard 0 0 Player.W = some b2 →
        b2 = (remove_dead (setCell snapBoard 0 0 (some Player.W)) Player.W.opp).1) ∧
      (apply_move snapBoard 0 0 Player.W = none ↔
        ¬ GroupHasLiberty
          ((remove_dead (setCell snapBoard 0 0 (some Player.W)) Player.W.opp).1) 0 0)) :=
  ⟨by decide, apply_move_suicide_after_capture snapBoard 0 0 Player.W (by decide)⟩

/-! ### Alpha-beta versus full minimax (claim C1)

The plan is the Knuth–Moore fail-soft bounds, adapted to this source's
quirk that `break` leaves only the inner column loop: along every scan the
running best value only grows (shrinks, minimizing), `alpha` stays
`max alpha₀ max_eval` (`beta` stays `min beta₀ min_eval`), and once a
cutoff has fired the window argument of later child calls is improper, so
nothing is assumed about those children — their results can only push the
running maximum past `beta` (minimum below `alpha`), where the parent
ignores it. -/

theorem if_lt_max (m ev : EInt) : (if m < ev then ev else m) = max m ev := by
  by_cases h : m < ev
  · rw [if_pos h, max_eq_right h.le]
  · rw [if_neg h, max_eq_left (not_lt.mp h)]

theorem if_lt_min (m ev : EInt) : (if ev < m then ev else m) = min m ev := by
  by_cases h : ev < m
  · rw [if_pos h, min_eq_right h.le]
  · rw [if_neg h, min_eq_left (not_lt.mp h)]

/-- A position is a legal move for the evaluation function `F`. -/
def LegalF (F : Pos → EInt → Option EInt) (p : Pos) : Prop :=
  ∃ a ev, F p a = some ev

theorem maxRow_base (F : Pos → EInt → Option EInt) (beta : EInt) :
    ∀ l m bm a m2 bm2 a2, maxRow F beta l (m, bm, a) = (m2, bm2, a2) → m ≤ a →
      m ≤ m2 ∧ m2 ≤ a2 ∧ a2 = max a m2 := by
  intro l
  induction l with
  | nil =>
    intro m bm a m2 bm2 a2 h hma
    simp only [maxRow, Prod.mk.injEq] at h
    obtain ⟨rfl, -, rfl⟩ := h
    exact ⟨le_refl m, hma, (max_eq_left hma).symm⟩
  | cons p rest ih =>
    intro m bm a m2 bm2 a2 h hma
    simp only [maxRow] at h
    cases hF : F p a with
    | none => rw [hF] at h; exact ih m bm a m2 bm2 a2 h hma
    | some ev =>
      rw [hF] at h
      dsimp only at h
      rw [if_lt_max] at h
      by_cases hcut : beta ≤ max a ev
      · rw [if_pos hcut] at h
        simp only [Prod.mk.injEq] at h
        obtain ⟨rfl, -, rfl⟩ := h
        refine ⟨le_max_left m ev, max_le_max hma le_rfl, ?_⟩
        rw [← max_assoc, max_eq_left hma]
      · rw [if_neg hcut] at h
        obtain ⟨h1, h2, h3⟩ := ih _ _ _ m2 bm2 a2 h (max_le_max hma le_rfl)
        refine ⟨(le_max_left m ev).trans h1, h2, ?_⟩
        have hev : ev ≤ m2 := (le_max_right m ev).trans h1
        rw [h3, max_assoc, max_eq_right hev]

theorem maxRows_base (F : Pos → EInt → Option EInt) (beta : EInt) :
    ∀ rows m bm a m2 bm2 a2, maxRows F beta rows (m, bm, a) = (m2, bm2, a2) → m ≤ a →
      m ≤ m2 ∧ m2 ≤ a2 ∧ a2 = max a m2 := by
  intro rows
  induction rows with
  | nil =>
    intro m bm a m2 bm2 a2 h hma
    simp only [maxRows, Prod.mk.injEq] at h
    obtain ⟨rfl, -, rfl⟩ := h
    exact ⟨le_refl m, hma, (max_eq_left hma).symm⟩
  | cons row rows ih =>
    intro m bm a m2 bm2 a2 h hma
    simp only [maxRows] at h
    rcases hrow : maxRow F beta row (m, bm, a) with ⟨m1, bm1, a1⟩
    rw [hrow] at h
    obtain ⟨hb1, hb2, hb3⟩ := maxRow_base F beta row m bm a m1 bm1 a1 hrow hma
    obtain ⟨hc1, hc2, hc3⟩ := ih m1 bm1 a1 m2 bm2 a2 h hb2
    refine ⟨hb1.trans hc1, hc2, ?_⟩
    have hm1 : m1 ≤ m2 := hc1
    rw [hc3, hb3, max_assoc, max_eq_right hm1]

theorem minRow_base (F : Pos → EInt → Option EInt) (alpha : EInt) :
    ∀ l m bm b m2 bm2 b2, minRow F alpha l (m, bm, b) = (m2, bm2, b2) → b ≤ m →
      m2 ≤ m ∧ b2 ≤ m2 ∧ b2 = min b m2 := by
  intro l
  induction l with
  | nil =>
    intro m bm b m2 bm2 b2 h hbm
    simp only [minRow, Prod.mk.injEq] at h
    obtain ⟨rfl, -, rfl⟩ := h
    exact ⟨le_refl m, hbm, (min_eq_left hbm).symm⟩
  | cons p rest ih =>
    intro m bm b m2 bm2 b2 h hbm
    simp only [minRow] at h
    cases hF : F p b with
    | none => rw [hF] at h; exact ih m bm b m2 bm2 b2 h hbm
    | some ev =>
      rw [hF] at h
      dsimp only at h
      rw [if_lt_min] at h
      by_cases hcut : min b ev ≤ alpha
      · rw [if_pos hcut] at h
        simp only [Prod.mk.injEq] at h
        obtain ⟨rfl, -, rfl⟩ := h
        refine ⟨min_le_left m ev, min_le_min hbm le_rfl, ?_⟩
        rw [← min_assoc, min_eq_left hbm]
      · rw [if_neg hcut] at h
        obtain ⟨h1, h2, h3⟩ := ih _ _ _ m2 bm2 b2 h (min_le_min hbm le_rfl)
        refine ⟨h1.trans (min_le_left m ev), h2, ?_⟩
        have hev : m2 ≤ ev := h1.trans (min_le_right m ev)
        rw [h3, min_assoc, min_eq_right hev]

theorem minRows_base (F : Pos → EInt → Option EInt) (alpha : EInt) :
    ∀ rows m bm b m2 bm2 b2, minRows F alpha rows (m, bm, b) = (m2, bm2, b2) → b ≤ m →
      m2 ≤ m ∧ b2 ≤ m2 ∧ b2 = min b m2 := by
  intro rows
  induction rows with
  | nil =>
    intro m bm b m2 bm2 b2 h hbm
    simp only [minRows, Prod.mk.injEq] at h
    obtain ⟨rfl, -, rfl⟩ := h
    exact ⟨le_refl m, hbm, (min_eq_left hbm).symm⟩
  | cons row rows ih =>
    intro m bm b m2 bm2 b2 h hbm
    simp only [minRows] at h
    rcases hrow : minRow F alpha row (m, bm, b) with ⟨m1, bm1, b1⟩
    rw [hrow] at h
    obtain ⟨hb1, hb2, hb3⟩ := minRow_base F alpha row m bm b m1 bm1 b1 hrow hbm
    obtain ⟨hc1, hc2, hc3⟩ := ih m1 bm1 b1 m2 bm2 b2 h hb2
    refine ⟨hc1.trans hb1, hc2, ?_⟩
    rw [hc3, hb3, min_assoc, min_eq_right hc1]

/-! #### The un-pruned fold -/

/-- One step of the un-pruned maximizing enumeration. -/
def stepMax (G : Pos → Option EInt) (st : EInt × Option Pos) (p : Pos) :
    EInt × Option Pos :=
  match G p with
  | none => st
  | some ev => if st.1 < ev then (ev, some p) else st

/-- One step of the un-pruned minimizing enumeration. -/
def stepMin (G : Pos → Option EInt) (st : EInt × Option Pos) (p : Pos) :
    EInt × Option Pos :=
  match G p with
  | none => st
  | some ev => if ev < st.1 then (ev, some p) else st

theorem foldMax_mono (G : Pos → Option EInt) :
    ∀ (l : List Pos) (st : EInt × Option Pos), st.1 ≤ (l.foldl (stepMax G) st).1 := by
  intro l
  induction l with
  | nil => intro st; exact le_refl _
  | cons p rest ih =>
    intro st
    rw [List.foldl_cons]
    refine le_trans ?_ (ih (stepMax G st p))
    rw [stepMax]
    cases hG : G p with
    | none => exact le_refl _
    | some ev =>
      dsimp only
      split
      · next hlt => exact le_of_lt hlt
      · exact le_refl _

theorem foldMax_ub (G : Pos → Option EInt) :
    ∀ (l : List Pos) (st : EInt × Option Pos) (p : Pos) (ev : EInt),
      p ∈ l → G p = some ev → ev ≤ (l.foldl (stepMax G) st).1 := by
  intro l
  induction l with
  | nil => intro st p ev hp; exact absurd hp (List.not_mem_nil p)
  | cons q rest ih =>
    intro st p ev hp hG
    rw [List.foldl_cons]
    rcases List.mem_cons.mp hp with rfl | hp2
    · refine le_trans ?_ (foldMax_mono G rest (stepMax G st p))
      rw [stepMax, hG]
      dsimp only
      split
      · next => exact le_refl _
      · next hnlt => exact not_lt.mp hnlt
    · exact ih (stepMax G st q) p ev hp2 hG

theorem foldMax_reached (G : Pos → Option EInt) :
    ∀ (l : List Pos) (st : EInt × Option Pos), (l.foldl (stepMax G) st).1 = st.1 ∨
      ∃ p ∈ l, ∃ ev, G p = some ev ∧ (l.foldl (stepMax G) st).1 = ev := by
  intro l
  induction l with
  | nil => intro st; exact Or.inl rfl
  | cons q rest ih =>
    intro st
    rw [List.foldl_cons]
    rcases ih (stepMax G st q) with h | ⟨p, hp, ev, hG, hev⟩
    · rw [h, stepMax]
      cases hG : G q with
      | none => exact Or.inl rfl
      | some ev =>
        dsimp only
        split
        · exact Or.inr ⟨q, List.mem_cons_self _ _, ev, hG, rfl⟩
        · exact Or.inl rfl
    · exact Or.inr ⟨p, List.mem_cons_of_mem _ hp, ev, hG, hev⟩

theorem foldMin_mono (G : Pos → Option EInt) :
    ∀ (l : List Pos) (st : EInt × Option Pos), (l.foldl (stepMin G) st).1 ≤ st.1 := by
  intro l
  induction l with
  | nil => intro st; exact le_refl _
  | cons p rest ih =>
    intro st
    rw [List.foldl_cons]
    refine le_trans (ih (stepMin G st p)) ?_
    rw [stepMin]
    cases hG : G p with
    | none => exact le_refl _
    | some ev =>
      dsimp only
      split
      · next hlt => exact le_of_lt hlt
      · exact le_refl _

theorem foldMin_lb (G : Pos → Option EInt) :
    ∀ (l : List Pos) (st : EInt × Option Pos) (p : Pos) (ev : EInt),
      p ∈ l → G p = some ev → (l.foldl (stepMin G) st).1 ≤ ev := by
  intro l
  induction l with
  | nil => intro st p ev hp; exact absurd hp (List.not_mem_nil p)
  | cons q rest ih =>
    intro st p ev hp hG
    rw [List.foldl_cons]
    rcases List.mem_cons.mp hp with rfl | hp2
    · refine le_trans (foldMin_mono G rest (stepMin G st p)) ?_
      rw [stepMin, hG]
      dsimp only
      split
      · next => exact le_refl _
      · next hnlt => exact not_lt.mp hnlt
    · exact ih (stepMin G st q) p ev hp2 hG

theorem foldMin_reached (G : Pos → Option EInt) :
    ∀ (l : List Pos) (st : EInt × Option Pos), (l.foldl (stepMin G) st).1 = st.1 ∨
      ∃ p ∈ l, ∃ ev, G p = some ev ∧ (l.foldl (stepMin G) st).1 = ev := by
  intro l
  induction l with
  | nil => intro st; exact Or.inl rfl
  | cons q rest ih =>
    intro st
    rw [List.foldl_cons]
    rcases ih (stepMin G st q) with h | ⟨p, hp, ev, hG, hev⟩
    · rw [h, stepMin]
      cases hG : G q with
      | none => exact Or.inl rfl
      | some ev =>
        dsimp only
        split
        · exact Or.inr ⟨q, List.mem_cons_self _ _, ev, hG, rfl⟩
        · exact Or.inl rfl
    · exact Or.inr ⟨p, List.mem_cons_of_mem _ hp, ev, hG, hev⟩

theorem rowsList_join : rowsList.flatten = allPos := by decide

/-- Knuth–Moore bounds along one row of the maximizing loop.  `hF` states
the child guarantees for proper windows `(a, beta)`; nothing is assumed
about improper windows — when the running alpha has passed `beta` the
disjunction's second case carries a cutoff witness instead. -/
theorem maxRow_spec (F : Pos → EInt → Option EInt) (val : Pos → EInt) (beta : EInt)
    (hF : ∀ p a ev, F p a = some ev → a < beta →
      (ev ≤ a → val p ≤ a) ∧ (a < ev → ev < beta → ev = val p) ∧
        (beta ≤ ev → beta ≤ val p))
    (hLeg : ∀ p a a2, F p a = none → F p a2 = none) :
    ∀ (l : List Pos) (m : EInt) (bm : Option Pos) (a m2 : EInt) (bm2 : Option Pos)
      (a2 : EInt),
      maxRow F beta l (m, bm, a) = (m2, bm2, a2) → m ≤ a → a < beta →
      ((a2 < beta ∧
          (∀ p ∈ l, ∀ a3 ev3, F p a3 = some ev3 → val p ≤ max a m2) ∧
          (a < m2 → ∃ p ∈ l, LegalF F p ∧ m2 = val p)) ∨
        (beta ≤ a2 ∧ ∃ p ∈ l, LegalF F p ∧ beta ≤ val p)) := by
  intro l
  induction l with
  | nil =>
    intro m bm a m2 bm2 a2 h hma hab
    simp only [maxRow, Prod.mk.injEq] at h
    obtain ⟨rfl, -, rfl⟩ := h
    refine Or.inl ⟨hab, by simp, ?_⟩
    intro hc
    exact absurd (lt_of_lt_of_le hc hma) (lt_irrefl a)
  | cons p rest ih =>
    intro m bm a m2 bm2 a2 h hma hab
    simp only [maxRow] at h
    cases hFp : F p a with
    | none =>
      rw [hFp] at h
      rcases ih m bm a m2 bm2 a2 h hma hab with ⟨h1, h2, h3⟩ | ⟨h1, q, hq, h2, h3⟩
      · refine Or.inl ⟨h1, ?_, ?_⟩
        · intro q hq a3 ev3 hq3
          rcases List.mem_cons.mp hq with rfl | hq2
          · exact absurd hq3 (by rw [hLeg q a a3 hFp]; simp)
          · exact h2 q hq2 a3 ev3 hq3
        · intro hlt
          obtain ⟨q, hq, hqleg, hqval⟩ := h3 hlt
          exact ⟨q, List.mem_cons_of_mem _ hq, hqleg, hqval⟩
      · exact Or.inr ⟨h1, q, List.mem_cons_of_mem _ hq, h2, h3⟩
    | some ev =>
      rw [hFp] at h
      dsimp only at h
      rw [if_lt_max] at h
      by_cases hcut : beta ≤ max a ev
      · rw [if_pos hcut] at h
        simp only [Prod.mk.injEq] at h
        obtain ⟨rfl, -, rfl⟩ := h
        have hbev : beta ≤ ev := by
          rcases le_max_iff.mp hcut with hc | hc
          · exact absurd hc (not_le.mpr hab)
          · exact hc
        exact Or.inr ⟨hcut, p, List.mem_cons_self _ _, ⟨a, ev, hFp⟩,
          (hF p a ev hFp hab).2.2 hbev⟩
      · rw [if_neg hcut] at h
        have hae : max a ev < beta := not_le.mp hcut
        have hevb : ev < beta := lt_of_le_of_lt (le_max_right a ev) hae
        have hma2 : max m ev ≤ max a ev := max_le_max hma le_rfl
        obtain ⟨hb1, hb2, hb3⟩ := maxRow_base F beta rest (max m ev) _ (max a ev)
          m2 bm2 a2 h hma2
        have hevm2 : ev ≤ m2 := (le_max_right m ev).trans hb1
        rcases ih _ _ _ m2 bm2 a2 h hma2 hae with ⟨h1, h2, h3⟩ | ⟨h1, q, hq, h2, h3⟩
        · refine Or.inl ⟨h1, ?_, ?_⟩
          · intro q hq a3 ev3 hq3
            rcases List.mem_cons.mp hq with rfl | hq2
            · by_cases heva : ev ≤ a
              · exact ((hF q a ev hFp hab).1 heva).trans (le_max_left a m2)
              · have hlt := not_le.mp heva
                rw [← (hF q a ev hFp hab).2.1 hlt hevb]
                exact hevm2.trans (le_max_right a m2)
            · refine (h2 q hq2 a3 ev3 hq3).trans (le_of_eq ?_)
              rw [max_assoc, max_eq_right hevm2]
          · intro hlt
            by_cases hsplit : max a ev < m2
            · obtain ⟨q, hq, hqleg, hqval⟩ := h3 hsplit
              exact ⟨q, List.mem_cons_of_mem _ hq, hqleg, hqval⟩
            · have hm2ae : m2 ≤ max a ev := not_lt.mp hsplit
              have hm2ev : m2 ≤ ev := by
                rcases le_max_iff.mp hm2ae with hc | hc
                · exact absurd hc (not_le.mpr hlt)
                · exact hc
              have hm2e : m2 = ev := le_antisymm hm2ev hevm2
              refine ⟨p, List.mem_cons_self _ _, ⟨a, ev, hFp⟩, ?_⟩
              rw [hm2e]
              exact (hF p a ev hFp hab).2.1 (hm2e ▸ hlt) hevb
        · exact Or.inr ⟨h1, q, List.mem_cons_of_mem _ hq, h2, h3⟩

/-- Knuth–Moore bounds along one row of the minimizing loop. -/
theorem minRow_spec (F : Pos → EInt → Option EInt) (val : Pos → EInt) (alpha : EInt)
    (hF : ∀ p b ev, F p b = some ev → alpha < b →
      (b ≤ ev → b ≤ val p) ∧ (alpha < ev → ev < b → ev = val p) ∧
        (ev ≤ alpha → val p ≤ alpha))
    (hLeg : ∀ p b b2, F p b = none → F p b2 = none) :
    ∀ (l : List Pos) (m : EInt) (bm : Option Pos) (b m2 : EInt) (bm2 : Option Pos)
      (b2 : EInt),
      minRow F alpha l (m, bm, b) = (m2, bm2, b2) → b ≤ m → alpha < b →
      ((alpha < b2 ∧
          (∀ p ∈ l, ∀ b3 ev3, F p b3 = some ev3 → min b m2 ≤ val p) ∧
          (m2 < b → ∃ p ∈ l, LegalF F p ∧ m2 = val p)) ∨
        (b2 ≤ alpha ∧ ∃ p ∈ l, LegalF F p ∧ val p ≤ alpha)) := by
  intro l
  induction l with
  | nil =>
    intro m bm b m2 bm2 b2 h hbm hab
    simp only [minRow, Prod.mk.injEq] at h
    obtain ⟨rfl, -, rfl⟩ := h
    refine Or.inl ⟨hab, by simp, ?_⟩
    intro hc
    exact absurd (lt_of_le_of_lt hbm hc) (lt_irrefl b)
  | cons p rest ih =>
    intro m bm b m2 bm2 b2 h hbm hab
    simp only [minRow] at h
    cases hFp : F p b with
    | none =>
      rw [hFp] at h
      rcases ih m bm b m2 bm2 b2 h hbm hab with ⟨h1, h2, h3⟩ | ⟨h1, q, hq, h2, h3⟩
      · refine Or.inl ⟨h1, ?_, ?_⟩
        · intro q hq b3 ev3 hq3
          rcases List.mem_cons.mp hq with rfl | hq2
          · exact absurd hq3 (by rw [hLeg q b b3 hFp]; simp)
          · exact h2 q hq2 b3 ev3 hq3
        · intro hlt
          obtain ⟨q, hq, hqleg, hqval⟩ := h3 hlt
          exact ⟨q, List.mem_cons_of_mem _ hq, hqleg, hqval⟩
      · exact Or.inr ⟨h1, q, List.mem_cons_of_mem _ hq, h2, h3⟩
    | some ev =>
      rw [hFp] at h
      dsimp only at h
      rw [if_lt_min] at h
      by_cases hcut : min b ev ≤ alpha
      · rw [if_pos hcut] at h
        simp only [Prod.mk.injEq] at h
        obtain ⟨rfl, -, rfl⟩ := h
        have hbev : ev ≤ alpha := by
          rcases min_le_iff.mp hcut with hc | hc
          · exact absurd hc (not_le.mpr hab)
          · exact hc
        exact Or.inr ⟨hcut, p, List.mem_cons_self _ _, ⟨b, ev, hFp⟩,
          (hF p b ev hFp hab).2.2 hbev⟩
      · rw [if_neg hcut] at h
        have hae : alpha < min b ev := not_le.mp hcut
        have hevb : alpha < ev := lt_of_lt_of_le hae (min_le_right b ev)
        have hbm2 : min b ev ≤ min m ev := min_le_min hbm le_rfl
        obtain ⟨hb1, hb2, hb3⟩ := minRow_base F alpha rest (min m ev) _ (min b ev)
          m2 bm2 b2 h hbm2
        have hevm2 : m2 ≤ ev := hb1.trans (min_le_right m ev)
        rcases ih _ _ _ m2 bm2 b2 h hbm2 hae with ⟨h1, h2, h3⟩ | ⟨h1, q, hq, h2, h3⟩
        · refine Or.inl ⟨h1, ?_, ?_⟩
          · intro q hq b3 ev3 hq3
            rcases List.mem_cons.mp hq with rfl | hq2
            · by_cases heva : b ≤ ev
              · exact (min_le_left b m2).trans ((hF q b ev hFp hab).1 heva)
              · have hlt := not_le.mp heva
                rw [← (hF q b ev hFp hab).2.1 hevb hlt]
                exact (min_le_right b m2).trans hevm2
            · refine le_of_eq ?_ |>.trans (h2 q hq2 b3 ev3 hq3)
              rw [min_assoc, min_eq_right hevm2]
          · intro hlt
            by_cases hsplit : m2 < min b ev
            · obtain ⟨q, hq, hqleg, hqval⟩ := h3 hsplit
              exact ⟨q, List.mem_cons_of_mem _ hq, hqleg, hqval⟩
            · have hm2ae : min b ev ≤ m2 := not_lt.mp hsplit
              have hm2ev : ev ≤ m2 := by
                rcases min_le_iff.mp hm2ae with hc | hc
                · exact absurd hc (not_le.mpr hlt)
                · exact hc
              have hm2e : m2 = ev := le_antisymm hevm2 hm2ev
              refine ⟨p, List.mem_cons_self _ _, ⟨b, ev, hFp⟩, ?_⟩
              rw [hm2e]
              exact (hF p b ev hFp hab).2.1 hevb (hm2e ▸ hlt)
        · exact Or.inr ⟨h1, q, List.mem_cons_of_mem _ hq, h2, h3⟩

/-- Knuth–Moore bounds across the whole nested maximizing loop: after a
cutoff the surviving rows still evaluate their first legal move each, with
improper windows, but those calls can only raise the running maximum,
which is already at or past `beta`. -/
theorem maxRows_spec (F : Pos → EInt → Option EInt) (val : Pos → EInt) (beta : EInt)
    (hF : ∀ p a ev, F p a = some ev → a < beta →
      (ev ≤ a → val p ≤ a) ∧ (a < ev → ev < beta → ev = val p) ∧
        (beta ≤ ev → beta ≤ val p))
    (hLeg : ∀ p a a2, F p a = none → F p a2 = none) :
    ∀ (rows : List (List Pos)) (m : EInt) (bm : Option Pos) (a m2 : EInt)
      (bm2 : Option Pos) (a2 : EInt),
      maxRows F beta rows (m, bm, a) = (m2, bm2, a2) → m ≤ a → a < beta →
      ((a2 < beta ∧
          (∀ p ∈ rows.flatten, ∀ a3 ev3, F p a3 = some ev3 → val p ≤ max a m2) ∧
          (a < m2 → ∃ p ∈ rows.flatten, LegalF F p ∧ m2 = val p)) ∨
        (beta ≤ a2 ∧ ∃ p ∈ rows.flatten, LegalF F p ∧ beta ≤ val p)) := by
  intro rows
  induction rows with
  | nil =>
    intro m bm a m2 bm2 a2 h hma hab
    simp only [maxRows, Prod.mk.injEq] at h
    obtain ⟨rfl, -, rfl⟩ := h
    refine Or.inl ⟨hab, by simp, ?_⟩
    intro hc
    exact absurd (lt_of_lt_of_le hc hma) (lt_irrefl a)
  | cons row rows ih =>
    intro m bm a m2 bm2 a2 h hma hab
    simp only [maxRows] at h
    rcases hrow : maxRow F beta row (m, bm, a) with ⟨m1, bm1, a1⟩
    rw [hrow] at h
    obtain ⟨hb1, hb2, hb3⟩ := maxRow_base F beta row m bm a m1 bm1 a1 hrow hma
    obtain ⟨hc1, hc2, hc3⟩ := maxRows_base F beta rows m1 bm1 a1 m2 bm2 a2 h hb2
    rcases maxRow_spec F val beta hF hLeg row m bm a m1 bm1 a1 hrow hma hab with
      ⟨h1, h2, h3⟩ | ⟨h1, q, hq, h2, h3⟩
    · rcases ih m1 bm1 a1 m2 bm2 a2 h hb2 h1 with ⟨k1, k2, k3⟩ | ⟨k1, q, hq, k2, k3⟩
      · refine Or.inl ⟨k1, ?_, ?_⟩
        · intro q hq a3 ev3 hq3
          rw [List.flatten_cons, List.mem_append] at hq
          rcases hq with hq | hq
          · exact (h2 q hq a3 ev3 hq3).trans (max_le_max le_rfl hc1)
          · refine (k2 q hq a3 ev3 hq3).trans (le_of_eq ?_)
            rw [hb3, max_assoc, max_eq_right hc1]
        · intro hlt
          by_cases hsplit : a1 < m2
          · obtain ⟨q, hq, hqleg, hqval⟩ := k3 hsplit
            refine ⟨q, ?_, hqleg, hqval⟩
            rw [List.flatten_cons, List.mem_append]
            exact Or.inr hq
          · have hm21 : m2 ≤ a1 := not_lt.mp hsplit
            have hm2m1 : m2 ≤ m1 := by
              rw [hb3] at hm21
              rcases le_max_iff.mp hm21 with hc | hc
              · exact absurd hc (not_le.mpr hlt)
              · exact hc
            have he : m2 = m1 := le_antisymm hm2m1 hc1
            obtain ⟨q, hq, hqleg, hqval⟩ := h3 (he ▸ hlt)
            refine ⟨q, ?_, hqleg, he ▸ hqval⟩
            rw [List.flatten_cons, List.mem_append]
            exact Or.inl hq
      · refine Or.inr ⟨k1, q, ?_, k2, k3⟩
        rw [List.flatten_cons, List.mem_append]
        exact Or.inr hq
    · refine Or.inr ⟨?_, q, ?_, h2, h3⟩
      · rw [hc3]
        exact h1.trans (le_max_left a1 m2)
      · rw [List.flatten_cons, List.mem_append]
        exact Or.inl hq

/-- Knuth–Moore bounds across the whole nested minimizing loop. -/
theorem minRows_spec (F : Pos → EInt → Option EInt) (val : Pos → EInt) (alpha : EInt)
    (hF : ∀ p b ev, F p b = some ev → alpha < b →
      (b ≤ ev → b ≤ val p) ∧ (alpha < ev → ev < b → ev = val p) ∧
        (ev ≤ alpha → val p ≤ alpha))
    (hLeg : ∀ p b b2, F p b = none → F p b2 = none) :
    ∀ (rows : List (List Pos)) (m : EInt) (bm : Option Pos) (b m2 : EInt)
      (bm2 : Option Pos) (b2 : EInt),
      minRows F alpha rows (m, bm, b) = (m2, bm2, b2) → b ≤ m → alpha < b →
      ((alpha < b2 ∧
          (∀ p ∈ rows.flatten, ∀ b3 ev3, F p b3 = some ev3 → min b m2 ≤ val p) ∧
          (m2 < b → ∃ p ∈ rows.flatten, LegalF F p ∧ m2 = val p)) ∨
        (b2 ≤ alpha ∧ ∃ p ∈ rows.flatten, LegalF F p ∧ val p ≤ alpha)) := by
  intro rows
  induction rows with
  | nil =>
    intro m bm b m2 bm2 b2 h hbm hab
    simp only [minRows, Prod.mk.injEq] at h
    obtain ⟨rfl, -, rfl⟩ := h
    refine Or.inl ⟨hab, by simp, ?_⟩
    intro hc
    exact absurd (lt_of_le_of_lt hbm hc) (lt_irrefl b)
  | cons row rows ih =>
    intro m bm b m2 bm2 b2 h hbm hab
    simp only [minRows] at h
    rcases hrow : minRow F alpha row (m, bm, b) with ⟨m1, bm1, b1⟩
    rw [hrow] at h
    obtain ⟨hb1, hb2, hb3⟩ := minRow_base F alpha row m bm b m1 bm1 b1 hrow hbm
    obtain ⟨hc1, hc2, hc3⟩ := minRows_base F alpha rows m1 bm1 b1 m2 bm2 b2 h hb2
    rcases minRow_spec F val alpha hF hLeg row m bm b m1 bm1 b1 hrow hbm hab with
      ⟨h1, h2, h3⟩ | ⟨h1, q, hq, h2, h3⟩
    · rcases ih m1 bm1 b1 m2 bm2 b2 h hb2 h1 with ⟨k1, k2, k3⟩ | ⟨k1, q, hq, k2, k3⟩
      · refine Or.inl ⟨k1, ?_, ?_⟩
        · intro q hq b3 ev3 hq3
          rw [List.flatten_cons, List.mem_append] at hq
          rcases hq with hq | hq
          · exact (min_le_min le_rfl hc1).trans (h2 q hq b3 ev3 hq3)
          · refine le_of_eq ?_ |>.trans (k2 q hq b3 ev3 hq3)
            rw [hb3, min_assoc, min_eq_right hc1]
        · intro hlt
          by_cases hsplit : m2 < b1
          · obtain ⟨q, hq, hqleg, hqval⟩ := k3 hsplit
            refine ⟨q, ?_, hqleg, hqval⟩
            rw [List.flatten_cons, List.mem_append]
            exact Or.inr hq
          · have hm21 : b1 ≤ m2 := not_lt.mp hsplit
            have hm2m1 : m1 ≤ m2 := by
              rw [hb3] at hm21
              rcases min_le_iff.mp hm21 with hc | hc
              · exact absurd hc (not_le.mpr hlt)
              · exact hc
            have he : m2 = m1 := le_antisymm hc1 hm2m1
            obtain ⟨q, hq, hqleg, hqval⟩ := h3 (he ▸ hlt)
            refine ⟨q, ?_, hqleg, he ▸ hqval⟩
            rw [List.flatten_cons, List.mem_append]
            exact Or.inl hq
      · refine Or.inr ⟨k1, q, ?_, k2, k3⟩
        rw [List.flatten_cons, List.mem_append]
        exact Or.inr hq
    · refine Or.inr ⟨?_, q, ?_, h2, h3⟩
      · rw [hc3]
        exact (min_le_left b1 m2).trans h1
      · rw [List.flatten_cons, List.mem_append]
        exact Or.inl hq

/-- The child evaluation of a maximizing `minimax` node. -/
def Fmax (d : Nat) (board : Board) (beta : EInt) (player : Player) :
    Pos → EInt → Option EInt :=
  fun p a => (apply_move board p.1 p.2 player).map
    (fun b2 => (minimax d b2 a beta false player).1)

/-- The child evaluation of a minimizing `minimax` node. -/
def Fmin (d : Nat) (board : Board) (alpha : EInt) (player : Player) :
    Pos → EInt → Option EInt :=
  fun p b => (apply_move board p.1 p.2 player.opp).map
    (fun b2 => (minimax d b2 alpha b true player).1)

/-- The child evaluation of a maximizing `fullMinimax` node. -/
def Gmax (d : Nat) (board : Board) (player : Player) : Pos → Option EInt :=
  fun p => (apply_move board p.1 p.2 player).map
    (fun b2 => (fullMinimax d b2 false player).1)

/-- The child evaluation of a minimizing `fullMinimax` node. -/
def Gmin (d : Nat) (board : Board) (player : Player) : Pos → Option EInt :=
  fun p => (apply_move board p.1 p.2 player.opp).map
    (fun b2 => (fullMinimax d b2 true player).1)

/-- The true (un-pruned) value of a maximizing node's child, `⊥` at
illegal positions (which the enumeration skips). -/
def valMax (d : Nat) (board : Board) (player : Player) : Pos → EInt :=
  fun p => match apply_move board p.1 p.2 player with
  | some b2 => (fullMinimax d b2 false player).1
  | none => ⊥

/-- The true (un-pruned) value of a minimizing node's child. -/
def valMin (d : Nat) (board : Board) (player : Player) : Pos → EInt :=
  fun p => match apply_move board p.1 p.2 player.opp with
  | some b2 => (fullMinimax d b2 true player).1
  | none => ⊤

theorem minimax_succ_max (d : Nat) (board : Board) (alpha beta : EInt) (player : Player) :
    minimax (d + 1) board alpha beta true player =
      ((maxRows (Fmax d board beta player) beta rowsList (⊥, none, alpha)).1,
        (maxRows (Fmax d board beta player) beta rowsList (⊥, none, alpha)).2.1) := rfl

theorem minimax_succ_min (d : Nat) (board : Board) (alpha beta : EInt) (player : Player) :
    minimax (d + 1) board alpha beta false player =
      ((minRows (Fmin d board alpha player) alpha rowsList (⊤, none, beta)).1,
        (minRows (Fmin d board alpha player) alpha rowsList (⊤, none, beta)).2.1) := rfl

theorem fullMinimax_succ_max (d : Nat) (board : Board) (player : Player) :
    fullMinimax (d + 1) board true player =
      allPos.foldl (stepMax (Gmax d board player)) (⊥, none) := by
  have h : (fun (st : EInt × Option Pos) (p : Pos) =>
      match apply_move board p.1 p.2 player with
      | none => st
      | some b2 =>
        let ev := (fullMinimax d b2 false player).1
        if st.1 < ev then (ev, some p) else st) = stepMax (Gmax d board player) := by
    funext st p
    cases hap : apply_move board p.1 p.2 player with
    | none => simp [stepMax, Gmax, hap]
    | some b2 => simp [stepMax, Gmax, hap]
  calc fullMinimax (d + 1) board true player
      = allPos.foldl (fun (st : EInt × Option Pos) (p : Pos) =>
          match apply_move board p.1 p.2 player with
          | none => st
          | some b2 =>
            let ev := (fullMinimax d b2 false player).1
            if st.1 < ev then (ev, some p) else st) (⊥, none) := rfl
    _ = allPos.foldl (stepMax (Gmax d board player)) (⊥, none) := by rw [h]

theorem fullMinimax_succ_min (d : Nat) (board : Board) (player : Player) :
    fullMinimax (d + 1) board false player =
      allPos.foldl (stepMin (Gmin d board player)) (⊤, none) := by
  have h : (fun (st : EInt × Option Pos) (p : Pos) =>
      match apply_move board p.1 p.2 player.opp with
      | none => st
      | some b2 =>
        let ev := (fullMinimax d b2 true player).1
        if ev < st.1 then (ev, some p) else st) = stepMin (Gmin d board player) := by
    funext st p
    cases hap : apply_move board p.1 p.2 player.opp with
    | none => simp [stepMin, Gmin, hap]
    | some b2 => simp [stepMin, Gmin, hap]
  calc fullMinimax (d + 1) board false player
      = allPos.foldl (fun (st : EInt × Option Pos) (p : Pos) =>
          match apply_move board p.1 p.2 player.opp with
          | none => st
          | some b2 =>
            let ev := (fullMinimax d b2 true player).1
            if ev < st.1 then (ev, some p) else st) (⊤, none) := rfl
    _ = allPos.foldl (stepMin (Gmin d board player)) (⊤, none) := by rw [h]

theorem Gmax_eq_val (d : Nat) (board : Board) (player : Player) (p : Pos) (ev : EInt)
    (h : Gmax d board player p = some ev) : ev = valMax d board player p := by
  rw [Gmax] at h
  cases hap : apply_move board p.1 p.2 player with
  | none => rw [hap] at h; exact absurd h (by simp)
  | some b2 =>
    rw [hap] at h
    rw [valMax, hap]
    have h2 : some ((fullMinimax d b2 false player).1) = some ev := h
    exact (Option.some.inj h2).symm

theorem Gmin_eq_val (d : Nat) (board : Board) (player : Player) (p : Pos) (ev : EInt)
    (h : Gmin d board player p = some ev) : ev = valMin d board player p := by
  rw [Gmin] at h
  cases hap : apply_move board p.1 p.2 player.opp with
  | none => rw [hap] at h; exact absurd h (by simp)
  | some b2 =>
    rw [hap] at h
    rw [valMin, hap]
    have h2 : some ((fullMinimax d b2 true player).1) = some ev := h
    exact (Option.some.inj h2).symm

theorem legal_Gmax (d d2 : Nat) (board : Board) (beta : EInt) (player : Player) (p : Pos)
    (h : LegalF (Fmax d board beta player) p) :
    Gmax d2 board player p = some (valMax d2 board player p) := by
  obtain ⟨a, ev, ha⟩ := h
  rw [Fmax] at ha
  cases hap : apply_move board p.1 p.2 player with
  | none => rw [hap] at ha; exact absurd ha (by simp)
  | some b2 => rw [Gmax, valMax, hap]; rfl

theorem legal_Gmin (d d2 : Nat) (board : Board) (alpha : EInt) (player : Player) (p : Pos)
    (h : LegalF (Fmin d board alpha player) p) :
    Gmin d2 board player p = some (valMin d2 board player p) := by
  obtain ⟨b, ev, hb⟩ := h
  rw [Fmin] at hb
  cases hap : apply_move board p.1 p.2 player.opp with
  | none => rw [hap] at hb; exact absurd hb (by simp)
  | some b2 => rw [Gmin, valMin, hap]; rfl

theorem Gmax_legal (d d2 : Nat) (board : Board) (beta : EInt) (player : Player) (p : Pos)
    (ev : EInt) (h : Gmax d2 board player p = some ev) :
    ∃ ev3, Fmax d board beta player p ⊥ = some ev3 := by
  rw [Gmax] at h
  cases hap : apply_move board p.1 p.2 player with
  | none => rw [hap] at h; exact absurd h (by simp)
  | some b2 => rw [Fmax, hap]; exact ⟨_, rfl⟩

theorem Gmin_legal (d d2 : Nat) (board : Board) (alpha : EInt) (player : Player) (p : Pos)
    (ev : EInt) (h : Gmin d2 board player p = some ev) :
    ∃ ev3, Fmin d board alpha player p ⊤ = some ev3 := by
  rw [Gmin] at h
  cases hap : apply_move board p.1 p.2 player.opp with
  | none => rw [hap] at h; exact absurd h (by simp)
  | some b2 => rw [Fmin, hap]; exact ⟨_, rfl⟩

theorem Fmax_leg_stable (d : Nat) (board : Board) (beta : EInt) (player : Player) :
    ∀ p a a2, Fmax d board beta player p a = none → Fmax d board beta player p a2 = none := by
  intro p a a2 h
  rw [Fmax] at h ⊢
  cases hap : apply_move board p.1 p.2 player with
  | none => rfl
  | some b2 => rw [hap] at h; exact absurd h (by simp)

theorem Fmin_leg_stable (d : Nat) (board : Board) (alpha : EInt) (player : Player) :
    ∀ p b b2, Fmin d board alpha player p b = none → Fmin d board alpha player p b2 = none := by
  intro p b b2 h
  rw [Fmin] at h ⊢
  cases hap : apply_move board p.1 p.2 player.opp with
  | none => rfl
  | some b3 => rw [hap] at h; exact absurd h (by simp)

/-- The Knuth–Moore fail-soft bounds for this source's alpha-beta
`minimax` against the un-pruned `fullMinimax`, at every proper window:
a value inside the window is exact, a value at or outside a bound is a
valid bound on the true value. -/
theorem minimax_KM :
    ∀ (d : Nat) (board : Board) (alpha beta : EInt) (player : Player),
      (alpha < beta →
        ((minimax d board alpha beta true player).1 ≤ alpha →
          (fullMinimax d board true player).1 ≤ alpha) ∧
        (alpha < (minimax d board alpha beta true player).1 →
          (minimax d board alpha beta true player).1 < beta →
          (minimax d board alpha beta true player).1 =
            (fullMinimax d board true player).1) ∧
        (beta ≤ (minimax d board alpha beta true player).1 →
          beta ≤ (fullMinimax d board true player).1)) ∧
      (alpha < beta →
        ((minimax d board alpha beta false player).1 ≤ alpha →
          (fullMinimax d board false player).1 ≤ alpha) ∧
        (alpha < (minimax d board alpha beta false player).1 →
          (minimax d board alpha beta false player).1 < beta →
          (minimax d board alpha beta false player).1 =
            (fullMinimax d board false player).1) ∧
        (beta ≤ (minimax d board alpha beta false player).1 →
          beta ≤ (fullMinimax d board false player).1)) := by
  intro d
  induction d with
  | zero =>
    intro board alpha beta player
    exact ⟨fun _ => ⟨fun h => h, fun _ _ => rfl, fun h => h⟩,
      fun _ => ⟨fun h => h, fun _ _ => rfl, fun h => h⟩⟩
  | succ d ih =>
    intro board alpha beta player
    constructor
    · intro hab
      have hF : ∀ p a ev, Fmax d board beta player p a = some ev → a < beta →
          (ev ≤ a → valMax d board player p ≤ a) ∧
          (a < ev → ev < beta → ev = valMax d board player p) ∧
          (beta ≤ ev → beta ≤ valMax d board player p) := by
        intro p a ev hFp hab2
        rw [Fmax] at hFp
        cases hap : apply_move board p.1 p.2 player with
        | none => rw [hap] at hFp; exact absurd hFp (by simp)
        | some b2 =>
          rw [hap] at hFp
          have h2 : some ((minimax d b2 a beta false player).1) = some ev := hFp
          have hev : (minimax d b2 a beta false player).1 = ev := Option.some.inj h2
          have hval : valMax d board player p = (fullMinimax d b2 false player).1 := by
            rw [valMax, hap]
          obtain ⟨k2, k1, k3⟩ := (ih b2 a beta player).2 hab2
          rw [hev] at k2 k1 k3
          rw [hval]
          exact ⟨k2, k1, k3⟩
      rw [minimax_succ_max, fullMinimax_succ_max]
      rcases hst : maxRows (Fmax d board beta player) beta rowsList (⊥, none, alpha) with
        ⟨m2, bm2, a2⟩
      obtain ⟨hbase1, hbase2, hbase3⟩ :=
        maxRows_base _ beta rowsList ⊥ none alpha m2 bm2 a2 hst bot_le
      have hspec := maxRows_spec (Fmax d board beta player) (valMax d board player) beta hF
        (Fmax_leg_stable d board beta player) rowsList ⊥ none alpha m2 bm2 a2 hst bot_le hab
      dsimp only
      refine ⟨?_, ?_, ?_⟩
      · intro he
        rcases hspec with ⟨-, hupper, -⟩ | ⟨hba2, -⟩
        · rcases foldMax_reached (Gmax d board player) allPos (⊥, none) with hv |
            ⟨p, hp, ev, hG, hev⟩
          · rw [hv]; exact bot_le
          · rw [hev, Gmax_eq_val d board player p ev hG]
            obtain ⟨ev3, hF3⟩ := Gmax_legal d d board beta player p ev hG
            have hu := hupper p (by rw [rowsList_join]; exact mem_allPos p) ⊥ ev3 hF3
            rwa [max_eq_left he] at hu
        · rw [hbase3, max_eq_left he] at hba2
          exact absurd hba2 (not_le.mpr hab)
      · intro hae hev
        rcases hspec with ⟨-, hupper, hwit⟩ | ⟨hba2, -⟩
        · apply le_antisymm
          · obtain ⟨p, hp, hleg, hval⟩ := hwit hae
            have hG := legal_Gmax d d board beta player p hleg
            have hub := foldMax_ub (Gmax d board player) allPos (⊥, none) p _
              (mem_allPos p) hG
            rw [hval]
            exact hub
          · rcases foldMax_reached (Gmax d board player) allPos (⊥, none) with hv |
              ⟨p, hp, ev, hG, hev2⟩
            · rw [hv]; exact bot_le
            · rw [hev2, Gmax_eq_val d board player p ev hG]
              obtain ⟨ev3, hF3⟩ := Gmax_legal d d board beta player p ev hG
              have hu := hupper p (by rw [rowsList_join]; exact mem_allPos p) ⊥ ev3 hF3
              rwa [max_eq_right hae.le] at hu
        · rw [hbase3] at hba2
          rcases le_max_iff.mp hba2 with hc | hc
          · exact absurd hc (not_le.mpr hab)
          · exact absurd hc (not_le.mpr hev)
      · intro hbe
        rcases hspec with ⟨ha2, -, -⟩ | ⟨-, p, hp, hleg, hval⟩
        · rw [hbase3] at ha2
          exact absurd (hbe.trans (le_max_right alpha m2)) (not_le.mpr ha2)
        · have hG := legal_Gmax d d board beta player p hleg
          have hub := foldMax_ub (Gmax d board player) allPos (⊥, none) p _
            (mem_allPos p) hG
          exact hval.trans hub
    · intro hab
      have hF : ∀ p b ev, Fmin d board alpha player p b = some ev → alpha < b →
          (b ≤ ev → b ≤ valMin d board player p) ∧
          (alpha < ev → ev < b → ev = valMin d board player p) ∧
          (ev ≤ alpha → valMin d board player p ≤ alpha) := by
        intro p b ev hFp hab2
        rw [Fmin] at hFp
        cases hap : apply_move board p.1 p.2 player.opp with
        | none => rw [hap] at hFp; exact absurd hFp (by simp)
        | some b2 =>
          rw [hap] at hFp
          have h2 : some ((minimax d b2 alpha b true player).1) = some ev := hFp
          have hev : (minimax d b2 alpha b true player).1 = ev := Option.some.inj h2
          have hval : valMin d board player p = (fullMinimax d b2 true player).1 := by
            rw [valMin, hap]
          obtain ⟨k2, k1, k3⟩ := (ih b2 alpha b player).1 hab2
          rw [hev] at k2 k1 k3
          rw [hval]
          exact ⟨k3, k1, k2⟩
      rw [minimax_succ_min, fullMinimax_succ_min]
      rcases hst : minRows (Fmin d board alpha player) alpha rowsList (⊤, none, beta) with
        ⟨m2, bm2, b2⟩
      obtain ⟨hbase1, hbase2, hbase3⟩ :=
        minRows_base _ alpha rowsList ⊤ none beta m2 bm2 b2 hst le_top
      have hspec := minRows_spec (Fmin d board alpha player) (valMin d board player) alpha hF
        (Fmin_leg_stable d board alpha player) rowsList ⊤ none beta m2 bm2 b2 hst le_top hab
      dsimp only
      refine ⟨?_, ?_, ?_⟩
      · intro he
        rcases hspec with ⟨-, -, hwit⟩ | ⟨-, p, hp, hleg, hval⟩
        · obtain ⟨p, hp, hleg, hval⟩ := hwit (lt_of_le_of_lt he hab)
          have hG := legal_Gmin d d board alpha player p hleg
          have hlb := foldMin_lb (Gmin d board player) allPos (⊤, none) p _
            (mem_allPos p) hG
          rw [← hval] at hlb
          exact hlb.trans he
        · have hG := legal_Gmin d d board alpha player p hleg
          have hlb := foldMin_lb (Gmin d board player) allPos (⊤, none) p _
            (mem_allPos p) hG
          exact hlb.trans hval
      · intro hae hev
        rcases hspec with ⟨-, hlower, hwit⟩ | ⟨hb2, -⟩
        · apply le_antisymm
          · rcases foldMin_reached (Gmin d board player) allPos (⊤, none) with hv |
              ⟨p, hp, ev, hG, hev2⟩
            · rw [hv]; exact le_top
            · rw [hev2, Gmin_eq_val d board player p ev hG]
              obtain ⟨ev3, hF3⟩ := Gmin_legal d d board alpha player p ev hG
              have hl := hlower p (by rw [rowsList_join]; exact mem_allPos p) ⊤ ev3 hF3
              rwa [min_eq_right hev.le] at hl
          · obtain ⟨p, hp, hleg, hval⟩ := hwit hev
            have hG := legal_Gmin d d board alpha player p hleg
            have hlb := foldMin_lb (Gmin d board player) allPos (⊤, none) p _
              (mem_allPos p) hG
            rw [hval]
            exact hlb
        · rw [hbase3] at hb2
          rcases min_le_iff.mp hb2 with hc | hc
          · exact absurd hc (not_le.mpr hab)
          · exact absurd hc (not_le.mpr hae)
      · intro hbe
        rcases hspec with ⟨-, hlower, -⟩ | ⟨hb2, -⟩
        · rcases foldMin_reached (Gmin d board player) allPos (⊤, none) with hv |
            ⟨p, hp, ev, hG, hev2⟩
          · rw [hv]; exact le_top
          · rw [hev2, Gmin_eq_val d board player p ev hG]
            obtain ⟨ev3, hF3⟩ := Gmin_legal d d board alpha player p ev hG
            have hl := hlower p (by rw [rowsList_join]; exact mem_allPos p) ⊤ ev3 hF3
            rwa [min_eq_left hbe] at hl
        · rw [hbase3, min_eq_left hbe] at hb2
          exact absurd (hab.trans_le hb2) (lt_irrefl alpha)

/-- With the full window `(-inf, inf)` — the window `ai_move` passes for
every root candidate — alpha-beta returns exactly the un-pruned value. -/
theorem minimax_exact (d : Nat) (board : Board) (side : Bool) (player : Player) :
    (minimax d board ⊥ ⊤ side player).1 = (fullMinimax d board side player).1 := by
  have hbt : (⊥ : EInt) < ⊤ := bot_lt_top
  cases side with
  | true =>
    obtain ⟨k2, k1, k3⟩ := (minimax_KM d board ⊥ ⊤ player).1 hbt
    by_cases h1 : (minimax d board ⊥ ⊤ true player).1 ≤ ⊥
    · have h2 := k2 h1
      rw [le_bot_iff] at h1 h2
      rw [h1, h2]
    · by_cases h2 : ⊤ ≤ (minimax d board ⊥ ⊤ true player).1
      · have h3 := k3 h2
        rw [top_le_iff] at h2 h3
        rw [h2, h3]
      · exact k1 (not_le.mp h1) (not_le.mp h2)
  | false =>
    obtain ⟨k2, k1, k3⟩ := (minimax_KM d board ⊥ ⊤ player).2 hbt
    by_cases h1 : (minimax d board ⊥ ⊤ false player).1 ≤ ⊥
    · have h2 := k2 h1
      rw [le_bot_iff] at h1 h2
      rw [h1, h2]
    · by_cases h2 : ⊤ ≤ (minimax d board ⊥ ⊤ false player).1
      · have h3 := k3 h2
        rw [top_le_iff] at h2 h3
        rw [h2, h3]
      · exact k1 (not_le.mp h1) (not_le.mp h2)

/-- The root enumerations agree move by move once each candidate's score
is known to be exact. -/
theorem ai_root_eq_full (board : Board) (depth : Nat) :
    ai_root board depth = full_root board depth := by
  rw [ai_root, full_root]
  congr 1
  funext st p
  cases hap : apply_move board p.1 p.2 Player.B with
  | none => simp [hap]
  | some b2 => simp [hap, minimax_exact]

/-! ### Claim C1 -/

/-- C1: at every search depth from 1 to 4 and on every board, the
alpha-beta search (the root enumeration of `ai_move` over the pruned
`minimax` recursion) reports exactly the same score and the same best
move as the un-pruned full minimax exploration — pruning can only change
which nodes are explored, never the reported optimum. -/
theorem alpha_beta_matches_full_minimax (board : Board) (depth : Nat)
    (h1 : 1 ≤ depth) (h4 : depth ≤ 4) :
    ai_root board depth = full_root board depth :=
  ai_root_eq_full board depth

/-- Witness for C1 at the empty board, depth 1. -/
theorem alpha_beta_matches_full_minimax_witness :
    ((1 : Nat) ≤ 1 ∧ (1 : Nat) ≤ 4) ∧ ai_root new_board 1 = full_root new_board 1 :=
  ⟨⟨le_refl 1, by decide⟩,
    alpha_beta_matches_full_minimax new_board 1 (le_refl 1) (by decide)⟩

/-! ### Claim C7 -/

/-- C7: on the empty board all 25 coordinates are legal Black moves and the
depth-1 root search returns the move `(0, 0)` — first in row-major order,
kept by the strict-improvement tie-break — with score 1, the heuristic of
a board holding exactly one Black stone. -/
theorem empty_board_depth1_search :
    (∀ r c : Fin 5, (apply_move new_board r c Player.B).isSome = true) ∧
      ai_root new_board 1 = (some (toE 1), some (0, 0)) := by
  constructor
  · decide
  · decide

end MiniGo
